import Mathlib

/-!
Verification of the ChessBot engine (`src/piece.py`, `src/board.py`, `src/bot.py`).

The embedding mirrors the Python source:
* a `Piece` carries its kind as the source's name string, its position as a
  pair of Python integers, and its team as the source's one-letter color
  (`'w'` / `'b'`); the source stores the same data under the names
  `name`/`pos`/`color` in `piece.py` and `name`/`ind_pos`/`team` in `board.py`.
* `Board.find_by_pos` walks `self.pieces` keeping the last match; we model the
  pure lookup.  The defensive duplicate-position scan that raises `ValueError`
  is not modeled: every theorem below either takes concrete boards without
  duplicated squares or is an equality between two functions sharing this
  lookup.
* Python floats appear only as move-ordering heuristics and the `±inf`
  search bounds; all concrete values are integral, so heuristic scores are
  `Int` and search values live in `WithBot (WithTop Int)` (with `⊥`/`⊤` for
  `-inf`/`+inf`).
-/

namespace ChessBot

/-- A piece, as in `piece.py` (`name` / `pos` / `color`) and `board.py`
(`name` / `ind_pos` / `team`).  The kind is the source's name string
(`"king"`, `"queen"`, `"rook"`, `"bishop"`, `"knight"`, `"pawn"`); the team is
the source's one-letter color character. -/
structure Piece where
  kind : String
  pos : Int × Int
  team : Char
deriving DecidableEq, Repr

/-- A move, as in `piece.py` (`Move`): the moving piece, start and end
squares, the heuristic ordering score, the capture flag and the captured
piece snapshot. -/
structure Move where
  piece : Piece
  startPos : Int × Int
  endPos : Int × Int
  score : Int
  isCapture : Bool
  captured : Option Piece
deriving DecidableEq, Repr

/-- `Piece._check_position_bounds`: returns the position unchanged when it is
inside the 8x8 grid, `none` otherwise. -/
def checkPositionBounds (pos : Int × Int) : Option (Int × Int) :=
  if pos.1 < 0 ∨ pos.1 > 7 ∨ pos.2 < 0 ∨ pos.2 > 7 then none else some pos

/-- `Board.find_by_pos`: walk the piece list and keep the last piece whose
position matches (the source loop overwrites `found_piece` on every match). -/
def findByPos (pieces : List Piece) (pos : Int × Int) : Option Piece :=
  pieces.foldl (fun acc p => if p.pos = pos then some p else acc) none

/-- The direction vectors of the king case of `Piece.calculate_moves`. -/
def kingDirs : List (Int × Int) :=
  [(1, 0), (-1, 0), (0, -1), (0, 1), (1, 1), (1, -1), (-1, 1), (-1, -1)]

/-- The direction vectors of the queen case of `Piece.calculate_moves`. -/
def queenDirs : List (Int × Int) :=
  [(1, 0), (-1, 0), (0, -1), (0, 1), (1, -1), (1, 1), (-1, -1), (-1, 1)]

/-- The direction vectors of the rook case of `Piece.calculate_moves`. -/
def rookDirs : List (Int × Int) := [(1, 0), (-1, 0), (0, -1), (0, 1)]

/-- The direction vectors of the bishop case of `Piece.calculate_moves`. -/
def bishopDirs : List (Int × Int) := [(1, -1), (1, 1), (-1, -1), (-1, 1)]

/-- The offsets of the knight case of `Piece.calculate_moves`. -/
def knightDirs : List (Int × Int) :=
  [(1, 2), (1, -2), (-1, 2), (-1, -2), (2, 1), (2, -1), (-2, 1), (-2, -1)]

/-- `MoveFactory.__call__` without its bounds assertions; that every produced
move is in bounds is exactly the content of claim C9 below. -/
def mkMove (p : Piece) (s e : Int × Int) (sc : Int) (cap : Bool)
    (capp : Option Piece) : Move :=
  { piece := p, startPos := s, endPos := e, score := sc, isCapture := cap,
    captured := capp }

/-- One stepping offset of the king/knight cases: out-of-bounds targets are
skipped, enemy-occupied targets become captures, empty targets become quiet
moves, own-team targets are skipped (`continue`). -/
def stepMoves (p : Piece) (pieces : List Piece) (capSc mvSc : Int)
    (dirs : List (Int × Int)) : List Move :=
  dirs.foldr
    (fun dir acc =>
      match checkPositionBounds (p.pos.1 + dir.1, p.pos.2 + dir.2) with
      | none => acc
      | some ep =>
        match findByPos pieces ep with
        | some q =>
          if p.team ≠ q.team then
            mkMove p p.pos ep capSc true (some q) :: acc
          else acc
        | none => mkMove p p.pos ep mvSc false none :: acc)
    []

/-- The inner `for i in range(8)` loop of the queen/rook/bishop cases, for one
direction.  The index starts at `i = 0` exactly as in the source, so the first
examined square is the piece's own square.  Out-of-bounds squares are skipped
(`continue`), an enemy-occupied square is appended as a capture and ends the
direction (`break`), an own-team square ends the direction (`break`). -/
def slideDir (p : Piece) (pieces : List Piece) (capSc mvSc : Int)
    (dir : Int × Int) : List Nat → List Move
  | [] => []
  | i :: is =>
    match checkPositionBounds
        (p.pos.1 + (i : Int) * dir.1, p.pos.2 + (i : Int) * dir.2) with
    | none => slideDir p pieces capSc mvSc dir is
    | some ep =>
      match findByPos pieces ep with
      | some q =>
        if p.team ≠ q.team then [mkMove p p.pos ep capSc true (some q)]
        else []
      | none =>
        mkMove p p.pos ep mvSc false none :: slideDir p pieces capSc mvSc dir is

/-- The sliding cases (queen/rook/bishop) of `Piece.calculate_moves`: for each
direction run the `range(8)` loop. -/
def slideMoves (p : Piece) (pieces : List Piece) (capSc mvSc : Int)
    (dirs : List (Int × Int)) : List Move :=
  dirs.foldr (fun dir acc => slideDir p pieces capSc mvSc dir [0, 1, 2, 3, 4, 5, 6, 7] ++ acc) []

/-- The pawn case of `Piece.calculate_moves`: iterate the three directions
`[(pawn_dir*home_pos, 0), (pawn_dir, 1), (pawn_dir, -1)]`; a `break` in the
source leaves the whole direction loop, which the recursion models by
returning without processing the remaining directions. -/
def pawnLoop (p : Piece) (pieces : List Piece) (pdir hp : Int) :
    List (Int × Int) → List Move
  | [] => []
  | dir :: dirs =>
    match checkPositionBounds (p.pos.1 + dir.1, p.pos.2 + dir.2) with
    | none => pawnLoop p pieces pdir hp dirs
    | some ep =>
      match findByPos pieces ep with
      | some q =>
        if p.team ≠ q.team ∧ dir ≠ (pdir * hp, 0) then
          mkMove p p.pos ep 20 true (some q) :: pawnLoop p pieces pdir hp dirs
        else if p.team = q.team then []
        else pawnLoop p pieces pdir hp dirs
      | none =>
        if dir = (pdir * hp, 0) then
          match findByPos pieces (ep.1 - pdir, ep.2) with
          | some _ => []
          | none =>
            mkMove p p.pos ep 0 false none ::
              ((if hp = 2 then [mkMove p p.pos (ep.1 - pdir, ep.2) 0 false none]
                else []) ++ pawnLoop p pieces pdir hp dirs)
        else pawnLoop p pieces pdir hp dirs

/-- `Piece.calculate_moves`: dispatch on the piece's name string.  The final
`list(set(self.available_moves))` of the source is the identity on the
collected moves: `Move` defines no equality or hash, so the Python set holds
the freshly created, pairwise distinct objects; only its iteration order is
unspecified, and no theorem below depends on the order of this list. -/
def calculateMoves (p : Piece) (pieces : List Piece) : List Move :=
  match p.kind with
  | "king" => stepMoves p pieces 10000 1000 kingDirs
  | "queen" => slideMoves p pieces 600 300 queenDirs
  | "rook" => slideMoves p pieces 200 100 rookDirs
  | "bishop" => slideMoves p pieces 100 50 bishopDirs
  | "knight" => stepMoves p pieces 100 0 knightDirs
  | "pawn" =>
    let pdir : Int := if p.team = 'w' then 1 else -1
    let hp : Int := if p.pos.1 = 1 ∨ p.pos.1 = 6 then 2 else 1
    pawnLoop p pieces pdir hp [(pdir * hp, 0), (pdir, 1), (pdir, -1)]
  | _ => []

/-- The board state of `board.py` (`Board`), restricted to the fields the
engine logic reads or writes.  The pygame blocks grid mirrors the piece list
(block `(x, y)` holds the piece whose position is `(x, y)`); the embedding
resolves block occupancy through `findByPos`, the same lookup `board.py`
uses for squares.  `players0`/`players1` are the two entries of the
`self.players` list and `cidx` is the state of the `itertools.cycle` iterator
over them (`false` means the next element returned is `players0`). -/
structure Board where
  pieces : List Piece
  capturedPieces : List Piece
  currentPlayer : Char
  players0 : Char
  players1 : Char
  cidx : Bool
  humanPlayer : Char
  botPlayer : Char
  boardStates : List (List Char)
  boardHistMov : Int
  gameOver : Bool
  winner : Option Char
deriving DecidableEq, Repr

/-- `next(self.c_players)`: the element of the player cycle returned next. -/
def Board.cycleNext (bd : Board) : Char :=
  if bd.cidx then bd.players1 else bd.players0

/-- `Board.get_pieces_for_player`. -/
def getPiecesForPlayer (bd : Board) (player : Char) : List Piece :=
  bd.pieces.filter (fun p => p.team = player)

/-- `Board.move(blocks)`, with the two blocks given by their squares.  If the
start block holds no piece nothing happens at all.  Otherwise, when the end
square is among the generated destinations: the occupant of the end square
(if any) is removed from `pieces`, and the mover's position becomes the end
square.  Whether or not the destination was accepted, the mover's presence
alone triggers `self.current_player = next(self.c_players)`.  The source
method touches neither `game_over`, nor `winner`, nor `captured_pieces`. -/
def movePos (bd : Board) (startP endP : Int × Int) : Board :=
  match findByPos bd.pieces startP with
  | none => bd
  | some mover =>
    let av := (calculateMoves mover bd.pieces).map (·.endPos)
    let ps :=
      if endP ∈ av then
        let removed :=
          match findByPos bd.pieces endP with
          | some occ => bd.pieces.erase occ
          | none => bd.pieces
        removed.map (fun p => if p = mover then { p with pos := endP } else p)
      else bd.pieces
    { bd with pieces := ps, currentPlayer := bd.cycleNext, cidx := !bd.cidx }

/-- `Piece.move(board, move)` from `piece.py` (unused by the live
`Board.move` path of `board.py`, but cited by the spec's game-over story):
it removes a captured occupant into `captured_pieces`, sets `game_over` when
the occupant is a king, and never assigns `winner`. -/
def pieceMove (bd : Board) (mv : Move) : Board :=
  let reloc := fun (ps : List Piece) =>
    ps.map (fun p => if p = mv.piece then { p with pos := mv.endPos } else p)
  match findByPos bd.pieces mv.endPos with
  | some occ =>
    { bd with
      gameOver := if occ.kind = "king" then true else bd.gameOver,
      capturedPieces := bd.capturedPieces ++ [occ],
      pieces := reloc (bd.pieces.erase occ) }
  | none => { bd with pieces := reloc bd.pieces }

/-- The fixed material table of `Board.score_board` (`PIECE_VALUES.get`,
default 0). -/
def pieceValue : String → Int
  | "king" => 1000
  | "queen" => 9
  | "rook" => 5
  | "bishop" => 3
  | "knight" => 3
  | "pawn" => 1
  | _ => 0

/-- `Board.score_board(player)`.  The loop splits every piece by
`piece.team == self.bot_player` — the `player` argument is read nowhere —
and accumulates material and generated-move counts for the two sides. -/
def scoreBoard (bd : Board) (player : Char) : Int :=
  let acc := bd.pieces.foldl
    (fun (acc : Int × Int × Int × Int) p =>
      if p.team = bd.botPlayer then
        (acc.1 + pieceValue p.kind, acc.2.1,
          acc.2.2.1 + (calculateMoves p bd.pieces).length, acc.2.2.2)
      else
        (acc.1, acc.2.1 + pieceValue p.kind,
          acc.2.2.1, acc.2.2.2 + (calculateMoves p bd.pieces).length))
    (0, 0, 0, 0)
  (acc.1 - acc.2.1) + 2 * (acc.2.2.1 - acc.2.2.2)

/-- Python `str` on a natural number: decimal digits. -/
def pyStrNatAux : Nat → Nat → List Char → List Char
  | 0, _, acc => acc
  | fuel + 1, n, acc =>
    let d := Char.ofNat (48 + n % 10)
    if n < 10 then d :: acc else pyStrNatAux fuel (n / 10) (d :: acc)

/-- Python `str` on an integer: decimal digits with a possible sign. -/
def pyStrInt : Int → List Char
  | Int.ofNat n => pyStrNatAux (n + 1) n []
  | Int.negSucc n => '-' :: pyStrNatAux (n + 2) (n + 1) []

/-- The kind letter `Board.serialize` writes: the lowercased first letter of
the name for knight and bishop, the capitalized first letter otherwise. -/
def kindChar (kind : String) : Char :=
  if kind = "knight" ∨ kind = "bishop" then kind.front else kind.front.toUpper

/-- The 4-character record `Board.serialize` writes for one piece:
`[team-letter][kind-letter][rank-digits][file-digits]` (the digit fields are
Python `str` of the coordinates, one character each for coordinates 0–9). -/
def pieceRecord (p : Piece) : List Char :=
  p.team.toUpper :: kindChar p.kind :: (pyStrInt p.pos.1 ++ pyStrInt p.pos.2)

/-- The state string `Board.serialize` builds: the concatenated piece records
followed by the single character of the player that plays next. -/
def stateChars (bd : Board) : List Char :=
  bd.pieces.flatMap pieceRecord ++ [bd.currentPlayer]

/-- `Board.serialize(store)`: with `store=True` the state string is appended
to `board_states` and `None` is returned; with `store=False` the state string
is returned and the board is untouched. -/
def serialize (bd : Board) (store : Bool) : Board × Option (List Char) :=
  if store then
    ({ bd with boardStates := bd.boardStates ++ [stateChars bd] }, none)
  else (bd, some (stateChars bd))

/-- The exceptions `Board.load_prev_state` can raise while decoding records:
`NotImplementedError` for a kind letter outside the fixed table,
`ValueError` from `int()` on a non-digit character, `AssertionError` from the
piece factory's bounds assertions. -/
inductive PyError where
  | notImplemented
  | valueError
  | assertionFailed
deriving DecidableEq, Repr

/-- The kind-letter table of `Board.load_prev_state` (`match piece_repr[1]`). -/
def kindOfChar : Char → Option String
  | 'K' => some "king"
  | 'Q' => some "queen"
  | 'R' => some "rook"
  | 'b' => some "bishop"
  | 'k' => some "knight"
  | 'P' => some "pawn"
  | _ => none

/-- Python `int()` on the single character of a digit field. -/
def charToDigit (c : Char) : Option Int :=
  if '0' ≤ c ∧ c ≤ '9' then some ((c.toNat : Int) - 48) else none

/-- The record loop of `Board.load_prev_state`: read `n` records of 4
characters, appending each decoded piece to the accumulator.  A failure stops
the loop at once (the exception propagates), leaving the pieces decoded so
far.  The piece factory's bounds assertions (`0 <= pos < 8`) run on every
decoded piece. -/
def decodeRecords : Nat → List Char → List Piece → List Piece × Option PyError
  | 0, _, acc => (acc, none)
  | n + 1, c0 :: c1 :: c2 :: c3 :: rest, acc =>
    match kindOfChar c1 with
    | none => (acc, some PyError.notImplemented)
    | some name =>
      match charToDigit c2, charToDigit c3 with
      | some x, some y =>
        if 0 ≤ x ∧ x < 8 ∧ 0 ≤ y ∧ y < 8 then
          decodeRecords n rest (acc ++ [{ kind := name, pos := (x, y), team := c0.toLower }])
        else (acc, some PyError.assertionFailed)
      | _, _ => (acc, some PyError.valueError)
  | _ + 1, _, acc => (acc, none)

/-- `Board.load_prev_state(state)`.  The history cursor advances and is
clamped; the piece list is cleared **before** any parsing; a falsy `state`
argument (absent or empty) falls back to the stored history entry
`board_states[-board_hist_mov]`; then `len(state) // 4` records are decoded
into the fresh list.  On a decode exception the board keeps whatever prefix
was already appended.  (The source raises `IndexError` when the fallback
indexes an empty history; the fallback of the model returns an empty entry
instead — every theorem below passes an explicit non-empty state.) -/
def histClamp (bd : Board) : Int :=
  if bd.boardHistMov + 1 ≥ (bd.boardStates.length : Int) then
    (bd.boardStates.length : Int)
  else bd.boardHistMov + 1

/-- The state string `Board.load_prev_state` actually decodes: a falsy
`state` argument (absent or empty) falls back to the stored history entry
`board_states[-board_hist_mov]`. -/
def resolveState (bd : Board) (stateOpt : Option (List Char)) : List Char :=
  match stateOpt with
  | some s =>
    if s = [] then bd.boardStates.getD (bd.boardStates.length - (histClamp bd).toNat) []
    else s
  | none => bd.boardStates.getD (bd.boardStates.length - (histClamp bd).toNat) []

def loadPrevState (bd : Board) (stateOpt : Option (List Char)) :
    Board × Option PyError :=
  ({ bd with
      pieces := (decodeRecords ((resolveState bd stateOpt).length / 4)
        (resolveState bd stateOpt) []).1,
      boardHistMov := histClamp bd },
    (decodeRecords ((resolveState bd stateOpt).length / 4)
      (resolveState bd stateOpt) []).2)

/-- A square inside the 8x8 grid. -/
def inBounds (pos : Int × Int) : Prop :=
  0 ≤ pos.1 ∧ pos.1 ≤ 7 ∧ 0 ≤ pos.2 ∧ pos.2 ≤ 7

instance (pos : Int × Int) : Decidable (inBounds pos) := by
  unfold inBounds; infer_instance

/-- The six piece names the engine constructs. -/
def pieceNames : List String := ["king", "queen", "rook", "bishop", "knight", "pawn"]

/-- A piece as every construction site of the source produces it: a known
name, an in-bounds square (asserted by the piece factory) and one of the two
team letters. -/
def validPiece (p : Piece) : Prop :=
  p.kind ∈ pieceNames ∧ (p.team = 'w' ∨ p.team = 'b') ∧ inBounds p.pos

instance (p : Piece) : Decidable (validPiece p) := by
  unfold validPiece; infer_instance

/-- Total material value of the pieces of team `t` in `ps`. -/
def teamMaterial (ps : List Piece) (t : Char) : Int :=
  ((ps.filter (fun p => p.team = t)).map (fun p => pieceValue p.kind)).sum

/-- Total material value of the pieces of `ps` not of team `t`. -/
def nonTeamMaterial (ps : List Piece) (t : Char) : Int :=
  ((ps.filter (fun p => ¬p.team = t)).map (fun p => pieceValue p.kind)).sum

/-- Total generated-move count of the pieces of team `t` in `ps`, each piece
queried against the ambient piece list `amb`. -/
def teamMobility (amb ps : List Piece) (t : Char) : Int :=
  ((ps.filter (fun p => p.team = t)).map
    (fun p => ((calculateMoves p amb).length : Int))).sum

/-- Total generated-move count of the pieces of `ps` not of team `t`. -/
def nonTeamMobility (amb ps : List Piece) (t : Char) : Int :=
  ((ps.filter (fun p => ¬p.team = t)).map
    (fun p => ((calculateMoves p amb).length : Int))).sum

/-- A lone white rook in the corner: the concrete board refuting the sliding
move generation story. -/
def rookCornerBoard : Board :=
  { pieces := [⟨"rook", (0, 0), 'w'⟩], capturedPieces := [],
    currentPlayer := 'w', players0 := 'b', players1 := 'w', cidx := false,
    humanPlayer := 'w', botPlayer := 'b', boardStates := [],
    boardHistMov := 0, gameOver := false, winner := none }

/-- Claim C1: for a queen, rook or bishop on a board, the generator is
claimed to return the empty squares along each direction up to the first
occupant.  The source's sliding loop `for i in range(8)` starts at `i = 0`,
where `find_by_pos` returns the sliding piece itself on its own square; the
own-team branch then breaks out of the direction immediately, so a rook
standing alone at (0,0) — for which the claim demands the fourteen squares
(0,1)…(0,7) and (1,0)…(7,0) — receives no moves at all. -/
theorem claim1_slider_on_board_has_no_moves :
    calculateMoves ⟨"rook", (0, 0), 'w'⟩ rookCornerBoard.pieces = [] ∧
      rookCornerBoard.pieces = [⟨"rook", (0, 0), 'w'⟩] := by
  constructor <;> decide

/-- A board holding one white knight, black to move: the concrete board
showing that a rejected move still flips `current_player`. -/
def knightRejectBoard : Board :=
  { pieces := [⟨"knight", (0, 0), 'w'⟩], capturedPieces := [],
    currentPlayer := 'b', players0 := 'w', players1 := 'b', cidx := false,
    humanPlayer := 'b', botPlayer := 'w', boardStates := [],
    boardHistMov := 0, gameOver := false, winner := none }

/-- Claim C2, counterexample: moving the knight from (0,0) to (5,5) is
rejected — (5,5) is not among its generated destinations — and indeed no
piece moves, yet `current_player` flips from 'b' to 'w', contradicting the
claim that a rejected move leaves `current_player` unchanged. -/
theorem claim2_rejected_move_still_flips_player :
    (5, 5) ∉ (calculateMoves ⟨"knight", (0, 0), 'w'⟩ knightRejectBoard.pieces).map
        (fun m => m.endPos) ∧
      (movePos knightRejectBoard (0, 0) (5, 5)).pieces = knightRejectBoard.pieces ∧
      (movePos knightRejectBoard (0, 0) (5, 5)).currentPlayer ≠
        knightRejectBoard.currentPlayer := by
  refine ⟨by decide, by decide, by decide⟩

/-- Claim C2, amended: `Board.move` leaves the whole board untouched when the
start square is empty; when the start square holds a piece it advances
`current_player` to the next element of the player cycle on every call —
accepted or rejected — and a rejected destination leaves the piece list
unchanged. -/
theorem claim2_amended_move_flip_discipline (bd : Board) (s e : Int × Int) :
    (findByPos bd.pieces s = none → movePos bd s e = bd) ∧
      (∀ p, findByPos bd.pieces s = some p →
        ((movePos bd s e).currentPlayer = bd.cycleNext ∧
            (movePos bd s e).cidx = !bd.cidx) ∧
          (e ∉ (calculateMoves p bd.pieces).map (fun m => m.endPos) →
            (movePos bd s e).pieces = bd.pieces)) := by
  constructor
  · intro h
    simp [movePos, h]
  · intro p hp
    refine ⟨⟨?_, ?_⟩, ?_⟩
    · simp [movePos, hp]
    · simp [movePos, hp]
    · intro hne
      simp only [movePos, hp]
      simp [hne]

/-- Claim C2, witness for the amended theorem at the concrete knight board:
the rejected move keeps the pieces and advances the player cycle. -/
theorem claim2_amended_witness :
    (movePos knightRejectBoard (0, 0) (5, 5)).pieces = knightRejectBoard.pieces ∧
      (movePos knightRejectBoard (0, 0) (5, 5)).currentPlayer =
        knightRejectBoard.cycleNext ∧
      (movePos knightRejectBoard (0, 0) (5, 5)).cidx = !knightRejectBoard.cidx := by
  have h := (claim2_amended_move_flip_discipline knightRejectBoard (0, 0) (5, 5)).2
    ⟨"knight", (0, 0), 'w'⟩ (by decide)
  exact ⟨h.2 (by decide), h.1.1, h.1.2⟩

/-- A white knight able to capture the black king: the concrete board showing
that `Board.move` ends no game. -/
def kingCaptureBoard : Board :=
  { pieces := [⟨"knight", (0, 0), 'w'⟩, ⟨"king", (1, 2), 'b'⟩],
    capturedPieces := [], currentPlayer := 'w', players0 := 'b',
    players1 := 'w', cidx := false, humanPlayer := 'w', botPlayer := 'b',
    boardStates := [], boardHistMov := 0, gameOver := false, winner := none }

/-- Claim C3: capturing a King is claimed to set `game_over` and `winner`.
On the live path, `Board.move` applies the knight's capture of the black
king — the king disappears from the piece list — yet `game_over` remains
false and `winner` remains unassigned (`board.py` never writes either field;
the only `game_over = True` lives in the unused `Piece.move` of `piece.py`,
which in turn never assigns `winner`). -/
theorem claim3_king_capture_sets_nothing :
    (1, 2) ∈ (calculateMoves ⟨"knight", (0, 0), 'w'⟩ kingCaptureBoard.pieces).map
        (fun m => m.endPos) ∧
      (movePos kingCaptureBoard (0, 0) (1, 2)).pieces =
        [⟨"knight", (1, 2), 'w'⟩] ∧
      (movePos kingCaptureBoard (0, 0) (1, 2)).gameOver = false ∧
      (movePos kingCaptureBoard (0, 0) (1, 2)).winner = none ∧
      (pieceMove kingCaptureBoard
          (mkMove ⟨"knight", (0, 0), 'w'⟩ (0, 0) (1, 2) 100 true
            (some ⟨"king", (1, 2), 'b'⟩))).winner = none := by
  refine ⟨by decide, by decide, by decide, by decide, by decide⟩

/-- A lone white pawn with the bot playing white: the concrete board showing
that `score_board` ignores its argument. -/
def lonePawnBoard : Board :=
  { pieces := [⟨"pawn", (0, 0), 'w'⟩], capturedPieces := [],
    currentPlayer := 'w', players0 := 'w', players1 := 'b', cidx := false,
    humanPlayer := 'b', botPlayer := 'w', boardStates := [],
    boardHistMov := 0, gameOver := false, winner := none }

/-- Claim C5, counterexample: evaluated "from black's perspective", the
lone-white-pawn board should score `(0 - 1) + 2*(0 - 0) = -1`, but
`score_board` answers `1`: the `player` argument is never read and the score
is always taken from `bot_player`'s side. -/
theorem claim5_score_ignores_perspective_argument :
    scoreBoard lonePawnBoard 'b' ≠
      (teamMaterial lonePawnBoard.pieces 'b' - nonTeamMaterial lonePawnBoard.pieces 'b') +
        2 * (teamMobility lonePawnBoard.pieces lonePawnBoard.pieces 'b' -
          nonTeamMobility lonePawnBoard.pieces lonePawnBoard.pieces 'b') := by
  decide

/-- Claim C10: `serialize(store=False)` returns the state string and leaves
the board untouched; `serialize(store=True)` returns nothing, appends exactly
that state string to `board_states`, and changes no other field. -/
theorem claim10_serialize_store_discipline (bd : Board) :
    serialize bd false = (bd, some (stateChars bd)) ∧
      (serialize bd true).2 = none ∧
      (serialize bd true).1.boardStates = bd.boardStates ++ [stateChars bd] ∧
      (serialize bd true).1.pieces = bd.pieces ∧
      (serialize bd true).1.capturedPieces = bd.capturedPieces ∧
      (serialize bd true).1.currentPlayer = bd.currentPlayer ∧
      (serialize bd true).1.players0 = bd.players0 ∧
      (serialize bd true).1.players1 = bd.players1 ∧
      (serialize bd true).1.cidx = bd.cidx ∧
      (serialize bd true).1.humanPlayer = bd.humanPlayer ∧
      (serialize bd true).1.botPlayer = bd.botPlayer ∧
      (serialize bd true).1.boardHistMov = bd.boardHistMov ∧
      (serialize bd true).1.gameOver = bd.gameOver ∧
      (serialize bd true).1.winner = bd.winner := by
  simp [serialize]

/-- The accumulator step of `score_board`, abstracted over the ambient piece
list used for mobility queries. -/
def scoreStep (amb : List Piece) (bot : Char) (acc : Int × Int × Int × Int)
    (p : Piece) : Int × Int × Int × Int :=
  if p.team = bot then
    (acc.1 + pieceValue p.kind, acc.2.1,
      acc.2.2.1 + (calculateMoves p amb).length, acc.2.2.2)
  else
    (acc.1, acc.2.1 + pieceValue p.kind,
      acc.2.2.1, acc.2.2.2 + (calculateMoves p amb).length)

theorem scoreBoard_foldl (amb : List Piece) (bot : Char) :
    ∀ (ps : List Piece) (a b c d : Int),
      ps.foldl (scoreStep amb bot) (a, b, c, d) =
        (a + teamMaterial ps bot, b + nonTeamMaterial ps bot,
          c + teamMobility amb ps bot, d + nonTeamMobility amb ps bot) := by
  intro ps
  induction ps with
  | nil =>
    intro a b c d
    simp [teamMaterial, nonTeamMaterial, teamMobility, nonTeamMobility]
  | cons p ps ih =>
    intro a b c d
    by_cases hp : p.team = bot
    · simp only [List.foldl_cons, scoreStep, hp, if_pos, ih]
      simp [teamMaterial, nonTeamMaterial, teamMobility, nonTeamMobility,
        List.filter_cons, hp]
      omega
    · simp only [List.foldl_cons, scoreStep, hp, if_neg, ih]
      simp [teamMaterial, nonTeamMaterial, teamMobility, nonTeamMobility,
        List.filter_cons, hp]
      omega

/-- Claim C5, amended: `score_board` never reads its `player` argument; for
every board and every argument it returns the material difference plus twice
the mobility difference taken from `bot_player`'s perspective, with the
opponent side collecting every piece not of the bot's team. -/
theorem claim5_amended_score_is_bot_perspective (bd : Board) (player : Char) :
    scoreBoard bd player =
      (teamMaterial bd.pieces bd.botPlayer - nonTeamMaterial bd.pieces bd.botPlayer) +
        2 * (teamMobility bd.pieces bd.pieces bd.botPlayer -
          nonTeamMobility bd.pieces bd.pieces bd.botPlayer) := by
  have h := scoreBoard_foldl bd.pieces bd.botPlayer bd.pieces 0 0 0 0
  simp only [zero_add] at h
  unfold scoreBoard
  rw [show (fun (acc : Int × Int × Int × Int) (p : Piece) =>
      if p.team = bd.botPlayer then
        (acc.1 + pieceValue p.kind, acc.2.1,
          acc.2.2.1 + (calculateMoves p bd.pieces).length, acc.2.2.2)
      else
        (acc.1, acc.2.1 + pieceValue p.kind,
          acc.2.2.1, acc.2.2.2 + (calculateMoves p bd.pieces).length)) =
    scoreStep bd.pieces bd.botPlayer from rfl]
  rw [h]

theorem checkPositionBounds_some {q ep : Int × Int}
    (h : checkPositionBounds q = some ep) : ep = q ∧ inBounds q := by
  unfold checkPositionBounds at h
  by_cases hc : q.1 < 0 ∨ q.1 > 7 ∨ q.2 < 0 ∨ q.2 > 7
  · simp [hc] at h
  · simp [hc] at h
    exact ⟨h.symm, by unfold inBounds; omega⟩

theorem stepMoves_bounds (p : Piece) (ps : List Piece) (a b : Int) :
    ∀ (dirs : List (Int × Int)) (m : Move), m ∈ stepMoves p ps a b dirs →
      m.startPos = p.pos ∧ inBounds m.endPos := by
  intro dirs
  induction dirs with
  | nil => intro m hm; simp [stepMoves] at hm
  | cons d ds ih =>
    intro m hm
    unfold stepMoves at hm
    rw [List.foldr_cons] at hm
    rcases hcp : checkPositionBounds (p.pos.1 + d.1, p.pos.2 + d.2) with _ | ep
    · simp only [hcp] at hm
      exact ih m hm
    · simp only [hcp] at hm
      obtain ⟨hep, hb⟩ := checkPositionBounds_some hcp
      rcases hf : findByPos ps ep with _ | q
      · simp only [hf] at hm
        rw [List.mem_cons] at hm
        rcases hm with hm | hm
        · subst hm; exact ⟨rfl, hep ▸ hb⟩
        · exact ih m hm
      · simp only [hf] at hm
        by_cases ht : p.team ≠ q.team
        · rw [if_pos ht] at hm
          rw [List.mem_cons] at hm
          rcases hm with hm | hm
          · subst hm; exact ⟨rfl, hep ▸ hb⟩
          · exact ih m hm
        · rw [if_neg ht] at hm
          exact ih m hm

theorem slideDir_bounds (p : Piece) (ps : List Piece) (a b : Int)
    (d : Int × Int) : ∀ (l : List Nat) (m : Move), m ∈ slideDir p ps a b d l →
      m.startPos = p.pos ∧ inBounds m.endPos := by
  intro l
  induction l with
  | nil => intro m hm; simp [slideDir] at hm
  | cons i is ih =>
    intro m hm
    unfold slideDir at hm
    rcases hcp : checkPositionBounds
        (p.pos.1 + (i : Int) * d.1, p.pos.2 + (i : Int) * d.2) with _ | ep
    · simp only [hcp] at hm
      exact ih m hm
    · simp only [hcp] at hm
      obtain ⟨hep, hb⟩ := checkPositionBounds_some hcp
      rcases hf : findByPos ps ep with _ | q
      · simp only [hf] at hm
        rw [List.mem_cons] at hm
        rcases hm with hm | hm
        · subst hm; exact ⟨rfl, hep ▸ hb⟩
        · exact ih m hm
      · simp only [hf] at hm
        by_cases ht : p.team ≠ q.team
        · rw [if_pos ht] at hm
          rw [List.mem_cons] at hm
          rcases hm with hm | hm
          · subst hm; exact ⟨rfl, hep ▸ hb⟩
          · simp at hm
        · rw [if_neg ht] at hm
          simp at hm

theorem slideMoves_bounds (p : Piece) (ps : List Piece) (a b : Int) :
    ∀ (dirs : List (Int × Int)) (m : Move), m ∈ slideMoves p ps a b dirs →
      m.startPos = p.pos ∧ inBounds m.endPos := by
  intro dirs
  induction dirs with
  | nil => intro m hm; simp [slideMoves] at hm
  | cons d ds ih =>
    intro m hm
    unfold slideMoves at hm
    rw [List.foldr_cons, List.mem_append] at hm
    rcases hm with hm | hm
    · exact slideDir_bounds p ps a b d _ m hm
    · exact ih m hm

theorem pawnLoop_bounds (p : Piece) (ps : List Piece) (pdir hp : Int)
    (hpd : pdir = 1 ∨ pdir = -1) (hhp : hp = 2 → p.pos.1 = 1 ∨ p.pos.1 = 6)
    (hpos : inBounds p.pos) :
    ∀ (dirs : List (Int × Int)) (m : Move), m ∈ pawnLoop p ps pdir hp dirs →
      m.startPos = p.pos ∧ inBounds m.endPos := by
  intro dirs
  induction dirs with
  | nil => intro m hm; simp [pawnLoop] at hm
  | cons d ds ih =>
    intro m hm
    unfold pawnLoop at hm
    rcases hcp : checkPositionBounds (p.pos.1 + d.1, p.pos.2 + d.2) with _ | ep
    · simp only [hcp] at hm
      exact ih m hm
    · simp only [hcp] at hm
      obtain ⟨hep, hb⟩ := checkPositionBounds_some hcp
      rcases hf : findByPos ps ep with _ | q
      · simp only [hf] at hm
        by_cases hfwd : d = (pdir * hp, 0)
        · rw [if_pos hfwd] at hm
          rcases hf2 : findByPos ps (ep.1 - pdir, ep.2) with _ | q2
          · simp only [hf2] at hm
            rw [List.mem_cons] at hm
            rcases hm with hm | hm
            · subst hm; exact ⟨rfl, hep ▸ hb⟩
            · rw [List.mem_append] at hm
              rcases hm with hm | hm
              · by_cases h2 : hp = 2
                · rw [if_pos h2] at hm
                  simp only [List.mem_singleton] at hm
                  subst hm
                  refine ⟨rfl, ?_⟩
                  show inBounds (ep.1 - pdir, ep.2)
                  have hep1 : ep.1 = p.pos.1 + d.1 := by rw [hep]
                  have hep2 : ep.2 = p.pos.2 + d.2 := by rw [hep]
                  have hd1 : d.1 = pdir * hp := by rw [hfwd]
                  have hd2 : d.2 = 0 := by rw [hfwd]
                  have h16 := hhp h2
                  unfold inBounds at hpos ⊢
                  simp only [hep1, hep2, hd1, hd2, h2]
                  rcases hpd with hpd | hpd <;> rcases h16 with h16 | h16 <;>
                    simp only [hpd, h16] <;> omega
                · rw [if_neg h2] at hm
                  simp at hm
              · exact ih m hm
          · simp only [hf2] at hm
            simp at hm
        · rw [if_neg hfwd] at hm
          exact ih m hm
      · simp only [hf] at hm
        by_cases hc1 : p.team ≠ q.team ∧ d ≠ (pdir * hp, 0)
        · rw [if_pos hc1] at hm
          rw [List.mem_cons] at hm
          rcases hm with hm | hm
          · subst hm; exact ⟨rfl, hep ▸ hb⟩
          · exact ih m hm
        · rw [if_neg hc1] at hm
          by_cases hc2 : p.team = q.team
          · rw [if_pos hc2] at hm
            simp at hm
          · rw [if_neg hc2] at hm
            exact ih m hm

/-- Claim C9: every move the generator produces for a piece standing on an
in-bounds square has both its start and its end square inside [0,7]×[0,7]
(confirming, at once, that the move factory's bounds assertions never fire
for generated moves). -/
theorem claim9_generated_moves_in_bounds (ps : List Piece) (p : Piece)
    (hpos : inBounds p.pos) :
    ∀ m ∈ calculateMoves p ps, inBounds m.startPos ∧ inBounds m.endPos := by
  intro m hm
  have hstart : m.startPos = p.pos → inBounds m.startPos := fun h => h ▸ hpos
  unfold calculateMoves at hm
  split at hm
  · obtain ⟨h1, h2⟩ := stepMoves_bounds p ps _ _ _ m hm
    exact ⟨hstart h1, h2⟩
  · obtain ⟨h1, h2⟩ := slideMoves_bounds p ps _ _ _ m hm
    exact ⟨hstart h1, h2⟩
  · obtain ⟨h1, h2⟩ := slideMoves_bounds p ps _ _ _ m hm
    exact ⟨hstart h1, h2⟩
  · obtain ⟨h1, h2⟩ := slideMoves_bounds p ps _ _ _ m hm
    exact ⟨hstart h1, h2⟩
  · obtain ⟨h1, h2⟩ := stepMoves_bounds p ps _ _ _ m hm
    exact ⟨hstart h1, h2⟩
  · simp only at hm
    have hpd : (if p.team = 'w' then (1 : Int) else -1) = 1 ∨
        (if p.team = 'w' then (1 : Int) else -1) = -1 := by
      by_cases h : p.team = 'w' <;> simp [h]
    have hhp : (if p.pos.1 = 1 ∨ p.pos.1 = 6 then (2 : Int) else 1) = 2 →
        p.pos.1 = 1 ∨ p.pos.1 = 6 := by
      by_cases h : p.pos.1 = 1 ∨ p.pos.1 = 6 <;> simp [h]
    obtain ⟨h1, h2⟩ := pawnLoop_bounds p ps _ _ hpd hhp hpos _ m hm
    exact ⟨hstart h1, h2⟩
  · simp at hm

/-- Claim C9, witness: the white pawn at (1,4) stands in bounds and the
theorem applies to its generated moves. -/
theorem claim9_witness :
    inBounds (⟨"pawn", (1, 4), 'w'⟩ : Piece).pos ∧
      ∀ m ∈ calculateMoves ⟨"pawn", (1, 4), 'w'⟩ [⟨"pawn", (1, 4), 'w'⟩],
        inBounds m.startPos ∧ inBounds m.endPos :=
  ⟨by decide,
    claim9_generated_moves_in_bounds [⟨"pawn", (1, 4), 'w'⟩]
      ⟨"pawn", (1, 4), 'w'⟩ (by decide)⟩

theorem checkPositionBounds_of_inBounds {q : Int × Int} (h : inBounds q) :
    checkPositionBounds q = some q := by
  unfold checkPositionBounds
  unfold inBounds at h
  rw [if_neg]
  omega

theorem pawnLoop_off_file (p : Piece) (ps : List Piece) (pdir hp : Int) :
    ∀ (dirs : List (Int × Int)), (∀ d ∈ dirs, d.2 ≠ 0) →
      ∀ m ∈ pawnLoop p ps pdir hp dirs, m.endPos.2 ≠ p.pos.2 := by
  intro dirs
  induction dirs with
  | nil => intro _ m hm; simp [pawnLoop] at hm
  | cons d ds ih =>
    intro hd m hm
    have hd0 : d.2 ≠ 0 := hd d (List.mem_cons_self d ds)
    have hds : ∀ e ∈ ds, e.2 ≠ 0 := fun e he => hd e (List.mem_cons_of_mem d he)
    unfold pawnLoop at hm
    rcases hcp : checkPositionBounds (p.pos.1 + d.1, p.pos.2 + d.2) with _ | ep
    · simp only [hcp] at hm
      exact ih hds m hm
    · simp only [hcp] at hm
      obtain ⟨hep, _⟩ := checkPositionBounds_some hcp
      rcases hf : findByPos ps ep with _ | q
      · simp only [hf] at hm
        by_cases hfwd : d = (pdir * hp, 0)
        · exact absurd (by rw [hfwd]) hd0
        · rw [if_neg hfwd] at hm
          exact ih hds m hm
      · simp only [hf] at hm
        by_cases hc1 : p.team ≠ q.team ∧ d ≠ (pdir * hp, 0)
        · rw [if_pos hc1] at hm
          rw [List.mem_cons] at hm
          rcases hm with hm | hm
          · subst hm
            show ep.2 ≠ p.pos.2
            rw [hep]
            omega
          · exact ih hds m hm
        · rw [if_neg hc1] at hm
          by_cases hc2 : p.team = q.team
          · rw [if_pos hc2] at hm
            simp at hm
          · rw [if_neg hc2] at hm
            exact ih hds m hm

/-- Claim C8: a pawn on its team's home rank whose one-step and two-step
squares are both free is offered both forward moves; whenever the one-step
square is occupied by a piece of either team, the two-step destination is
absent from the generated list. -/
theorem claim8_pawn_double_step (ps : List Piece) (p : Piece) (pdir : Int)
    (hk : p.kind = "pawn")
    (hw : (p.team = 'w' ∧ pdir = 1 ∧ p.pos.1 = 1) ∨
      (p.team = 'b' ∧ pdir = -1 ∧ p.pos.1 = 6))
    (hl : 0 ≤ p.pos.2) (hr : p.pos.2 ≤ 7) :
    (findByPos ps (p.pos.1 + pdir, p.pos.2) = none →
      findByPos ps (p.pos.1 + 2 * pdir, p.pos.2) = none →
      (p.pos.1 + 2 * pdir, p.pos.2) ∈
          (calculateMoves p ps).map (fun m => m.endPos) ∧
        (p.pos.1 + pdir, p.pos.2) ∈
          (calculateMoves p ps).map (fun m => m.endPos)) ∧
    (∀ q, findByPos ps (p.pos.1 + pdir, p.pos.2) = some q →
      (p.pos.1 + 2 * pdir, p.pos.2) ∉
        (calculateMoves p ps).map (fun m => m.endPos)) := by
  obtain ⟨k, ppos, t⟩ := p
  dsimp only at hk hw hl hr ⊢
  subst hk
  have hpd1 : (if t = 'w' then (1 : Int) else -1) = pdir := by
    rcases hw with ⟨h1, h2, _⟩ | ⟨h1, h2, _⟩ <;> simp [h1, h2]
  have hhp2 : (if ppos.1 = 1 ∨ ppos.1 = 6 then (2 : Int) else 1) = 2 := by
    rcases hw with ⟨_, _, h3⟩ | ⟨_, _, h3⟩ <;> simp [h3]
  have hcm : calculateMoves ⟨"pawn", ppos, t⟩ ps =
      pawnLoop ⟨"pawn", ppos, t⟩ ps pdir 2 [(pdir * 2, 0), (pdir, 1), (pdir, -1)] := by
    simp only [calculateMoves, hpd1, hhp2]
  rw [hcm]
  have hb2 : inBounds (ppos.1 + pdir * 2, ppos.2 + 0) := by
    unfold inBounds
    rcases hw with ⟨_, h2, h3⟩ | ⟨_, h2, h3⟩ <;> simp only [h2, h3] <;> omega
  have htwo : ((ppos.1 + pdir * 2, ppos.2 + 0) : Int × Int) =
      (ppos.1 + 2 * pdir, ppos.2) := by
    have ha : ppos.1 + pdir * 2 = ppos.1 + 2 * pdir := by omega
    have hb : ppos.2 + 0 = ppos.2 := by omega
    rw [ha, hb]
  have hcp2 : checkPositionBounds (ppos.1 + (pdir * 2, (0 : Int)).1,
      ppos.2 + (pdir * 2, (0 : Int)).2) = some (ppos.1 + 2 * pdir, ppos.2) := by
    show checkPositionBounds (ppos.1 + pdir * 2, ppos.2 + 0) = _
    rw [checkPositionBounds_of_inBounds hb2, htwo]
  have hone : ((ppos.1 + 2 * pdir) - pdir, ppos.2) = ((ppos.1 + pdir, ppos.2) : Int × Int) := by
    have ha : (ppos.1 + 2 * pdir) - pdir = ppos.1 + pdir := by omega
    rw [ha]
  have hfwd : ((pdir * 2, (0 : Int)) : Int × Int) = (pdir * 2, 0) := rfl
  constructor
  · intro h1 h2
    have hstep : pawnLoop ⟨"pawn", ppos, t⟩ ps pdir 2 [(pdir * 2, 0), (pdir, 1), (pdir, -1)] =
        mkMove ⟨"pawn", ppos, t⟩ ppos (ppos.1 + 2 * pdir, ppos.2) 0 false none ::
          (mkMove ⟨"pawn", ppos, t⟩ ppos (ppos.1 + pdir, ppos.2) 0 false none ::
            pawnLoop ⟨"pawn", ppos, t⟩ ps pdir 2 [(pdir, 1), (pdir, -1)]) := by
      conv_lhs => rw [pawnLoop]
      rw [hcp2]
      simp [h1, h2, hone, mkMove]
    constructor
    · rw [hstep]
      simp [mkMove]
    · rw [hstep]
      simp [mkMove]
  · intro q h1 hmem
    have hoff := pawnLoop_off_file ⟨"pawn", ppos, t⟩ ps pdir 2 [(pdir, 1), (pdir, -1)]
      (by
        intro d hd
        simp only [List.mem_cons, List.not_mem_nil, or_false] at hd
        rcases hd with h | h <;> subst h <;> simp)
    rcases hf2 : findByPos ps (ppos.1 + 2 * pdir, ppos.2) with _ | r
    · have hemp : pawnLoop ⟨"pawn", ppos, t⟩ ps pdir 2
          [(pdir * 2, 0), (pdir, 1), (pdir, -1)] = [] := by
        conv_lhs => rw [pawnLoop]
        rw [hcp2]
        simp [hf2, hone, h1]
      rw [hemp] at hmem
      simp at hmem
    · have htail : pawnLoop ⟨"pawn", ppos, t⟩ ps pdir 2
          [(pdir * 2, 0), (pdir, 1), (pdir, -1)] =
          (if t = r.team then ([] : List Move)
            else pawnLoop ⟨"pawn", ppos, t⟩ ps pdir 2 [(pdir, 1), (pdir, -1)]) := by
        conv_lhs => rw [pawnLoop]
        rw [hcp2]
        simp [hf2]
      rw [htail] at hmem
      by_cases hteam : t = r.team
      · rw [if_pos hteam] at hmem
        simp at hmem
      · rw [if_neg hteam] at hmem
        rw [List.mem_map] at hmem
        obtain ⟨m, hm, hend⟩ := hmem
        have hne := hoff m hm
        rw [hend] at hne
        simp at hne

/-- Claim C8, witness: the white pawn on its home square (1,4) of an
otherwise empty board receives both (3,4) and (2,4). -/
theorem claim8_witness :
    (3, 4) ∈ (calculateMoves ⟨"pawn", (1, 4), 'w'⟩ [⟨"pawn", (1, 4), 'w'⟩]).map
        (fun m => m.endPos) ∧
      (2, 4) ∈ (calculateMoves ⟨"pawn", (1, 4), 'w'⟩ [⟨"pawn", (1, 4), 'w'⟩]).map
        (fun m => m.endPos) :=
  (claim8_pawn_double_step [⟨"pawn", (1, 4), 'w'⟩] ⟨"pawn", (1, 4), 'w'⟩ 1 rfl
    (Or.inl ⟨rfl, rfl, rfl⟩) (by decide) (by decide)).1 (by decide) (by decide)

/-- The single character Python `str` produces for a digit-sized integer. -/
def digitChar (i : Int) : Char := Char.ofNat (48 + i.toNat)

theorem pyStrInt_digit (i : Int) (h0 : 0 ≤ i) (h7 : i ≤ 7) :
    pyStrInt i = [digitChar i] := by
  interval_cases i <;> decide

theorem charToDigit_digitChar (i : Int) (h0 : 0 ≤ i) (h7 : i ≤ 7) :
    charToDigit (digitChar i) = some i := by
  interval_cases i <;> decide

theorem kindOfChar_kindChar (k : String) (h : k ∈ pieceNames) :
    kindOfChar (kindChar k) = some k := by
  simp only [pieceNames, List.mem_cons, List.not_mem_nil, or_false] at h
  rcases h with h | h | h | h | h | h <;> subst h <;> decide

theorem toLower_toUpper_team (t : Char) (h : t = 'w' ∨ t = 'b') :
    t.toUpper.toLower = t := by
  rcases h with h | h <;> subst h <;> decide

theorem pieceRecord_valid (p : Piece) (h : validPiece p) :
    pieceRecord p =
      [p.team.toUpper, kindChar p.kind, digitChar p.pos.1, digitChar p.pos.2] := by
  obtain ⟨_, _, hb⟩ := h
  unfold pieceRecord
  rw [pyStrInt_digit p.pos.1 hb.1 hb.2.1, pyStrInt_digit p.pos.2 hb.2.2.1 hb.2.2.2]
  rfl

theorem decodeRecords_step (p : Piece) (h : validPiece p) (n : Nat)
    (rest : List Char) (acc : List Piece) :
    decodeRecords (n + 1) (pieceRecord p ++ rest) acc =
      decodeRecords n rest (acc ++ [p]) := by
  rw [pieceRecord_valid p h]
  obtain ⟨hk, ht, hb⟩ := h
  show decodeRecords (n + 1)
    (p.team.toUpper :: kindChar p.kind :: digitChar p.pos.1 :: digitChar p.pos.2 :: rest)
    acc = _
  have hcond : 0 ≤ p.pos.1 ∧ p.pos.1 < 8 ∧ 0 ≤ p.pos.2 ∧ p.pos.2 < 8 := by
    obtain ⟨b1, b2, b3, b4⟩ := hb
    omega
  have hpe : ({ kind := p.kind, pos := (p.pos.1, p.pos.2), team := p.team.toUpper.toLower } : Piece) = p := by
    rw [toLower_toUpper_team p.team ht]
  simp only [decodeRecords, kindOfChar_kindChar p.kind hk,
    charToDigit_digitChar p.pos.1 hb.1 hb.2.1,
    charToDigit_digitChar p.pos.2 hb.2.2.1 hb.2.2.2, if_pos hcond, hpe]

theorem decodeRecords_all (ps : List Piece) (h : ∀ p ∈ ps, validPiece p) :
    ∀ (acc : List Piece) (rest : List Char) (n : Nat),
      decodeRecords (ps.length + n) (ps.flatMap pieceRecord ++ rest) acc =
        decodeRecords n rest (acc ++ ps) := by
  induction ps with
  | nil => intro acc rest n; simp
  | cons p ps ih =>
    intro acc rest n
    have hp := h p (List.mem_cons_self p ps)
    have hps : ∀ q ∈ ps, validPiece q := fun q hq => h q (List.mem_cons_of_mem p hq)
    rw [List.flatMap_cons, List.append_assoc]
    have hlen : (p :: ps).length + n = (ps.length + n) + 1 := by
      simp [List.length_cons]
      omega
    rw [hlen, decodeRecords_step p hp _ _ acc]
    rw [ih hps (acc ++ [p]) rest n]
    simp

theorem pieceRecord_length (p : Piece) (h : validPiece p) :
    (pieceRecord p).length = 4 := by
  rw [pieceRecord_valid p h]
  rfl

theorem flatMap_pieceRecord_length (ps : List Piece)
    (h : ∀ p ∈ ps, validPiece p) :
    (ps.flatMap pieceRecord).length = 4 * ps.length := by
  induction ps with
  | nil => simp
  | cons p ps ih =>
    rw [List.flatMap_cons, List.length_append,
      pieceRecord_length p (h p (List.mem_cons_self p ps)),
      ih (fun q hq => h q (List.mem_cons_of_mem p hq))]
    simp [List.length_cons]
    omega

theorem stateChars_length (bd : Board) (h : ∀ p ∈ bd.pieces, validPiece p) :
    (stateChars bd).length = 4 * bd.pieces.length + 1 := by
  unfold stateChars
  rw [List.length_append, flatMap_pieceRecord_length bd.pieces h]
  rfl

/-- Claim C6: decoding the state string encoded from any board whose pieces
are well-formed — any name from the fixed table, any team letter, any
in-bounds square, so in particular the empty board and the full starting
position — reproduces, in any target board, the identical multiset of
(kind, team, square) triples, with no decode error. -/
theorem claim6_codec_roundtrip (bd target : Board)
    (h : ∀ p ∈ bd.pieces, validPiece p) :
    (loadPrevState target (some (stateChars bd))).2 = none ∧
      ((loadPrevState target (some (stateChars bd))).1.pieces.map
          (fun p => (p.kind, p.team, p.pos)) : Multiset (String × Char × (Int × Int))) =
        (bd.pieces.map (fun p => (p.kind, p.team, p.pos)) : List _) := by
  have hlen := stateChars_length bd h
  have hne : ¬stateChars bd = [] := by
    intro he
    rw [he] at hlen
    simp at hlen
  have hdiv : (stateChars bd).length / 4 = bd.pieces.length := by
    rw [hlen]
    omega
  have hdec : decodeRecords ((stateChars bd).length / 4) (stateChars bd) [] =
      (bd.pieces, none) := by
    rw [hdiv]
    unfold stateChars
    have := decodeRecords_all bd.pieces h [] [bd.currentPlayer] 0
    rw [Nat.add_zero] at this
    rw [this]
    rfl
  have hres : resolveState target (some (stateChars bd)) = stateChars bd := by
    simp only [resolveState]
    rw [if_neg hne]
  constructor
  · show (loadPrevState target (some (stateChars bd))).2 = none
    unfold loadPrevState
    rw [hres, hdec]
  · show _ = _
    unfold loadPrevState
    rw [hres, hdec]

/-- The hard-coded initial piece layout of `Board.__init__`
(`init_positions`), in insertion order. -/
def initPositions : List (String × List (Int × Int)) :=
  [("king", [(0, 3), (7, 4)]),
   ("queen", [(0, 4), (7, 3)]),
   ("rook", [(0, 0), (0, 7), (7, 0), (7, 7)]),
   ("bishop", [(0, 2), (0, 5), (7, 2), (7, 5)]),
   ("knight", [(0, 1), (0, 6), (7, 1), (7, 6)]),
   ("pawn", [(1, 0), (1, 1), (1, 2), (1, 3), (1, 4), (1, 5), (1, 6), (1, 7),
             (6, 0), (6, 1), (6, 2), (6, 3), (6, 4), (6, 5), (6, 6), (6, 7)])]

/-- The piece-construction loop of `Board.__init__`: for each name the first
half of its positions becomes white, the rest black, and each dictionary
entry `(x, y)` is stored as position `(y, x)`. -/
def setupPieces : List Piece :=
  initPositions.flatMap (fun nl =>
    nl.2.enum.map (fun ip =>
      { kind := nl.1, pos := (ip.2.2, ip.2.1),
        team := if ip.1 < nl.2.length / 2 then 'w' else 'b' }))

/-- `Board.__init__(width, height, player)` restricted to the engine fields:
the standard starting position with the given human player, ending with the
initial `self.serialize()` snapshot. -/
def boardInit (player : Char) : Board :=
  (serialize
    { pieces := setupPieces, capturedPieces := [], currentPlayer := player,
      players0 := if player = 'b' then 'w' else 'b', players1 := player,
      cidx := false, humanPlayer := player,
      botPlayer := if player = 'b' then 'w' else 'b', boardStates := [],
      boardHistMov := 0, gameOver := false, winner := none } true).1

/-- Claim C6, witness: the full starting position round-trips. -/
theorem claim6_witness :
    (∀ p ∈ (boardInit 'b').pieces, validPiece p) ∧
      ((loadPrevState (boardInit 'b') (some (stateChars (boardInit 'b')))).2 = none ∧
        ((loadPrevState (boardInit 'b') (some (stateChars (boardInit 'b')))).1.pieces.map
            (fun p => (p.kind, p.team, p.pos)) : Multiset (String × Char × (Int × Int))) =
          ((boardInit 'b').pieces.map (fun p => (p.kind, p.team, p.pos)) : List _)) :=
  ⟨by decide, claim6_codec_roundtrip (boardInit 'b') (boardInit 'b') (by decide)⟩

/-- A board holding one white king, used to show that a failed decode does
not preserve the previous placement. -/
def kingOnlyBoard : Board :=
  { pieces := [⟨"king", (0, 3), 'w'⟩], capturedPieces := [],
    currentPlayer := 'w', players0 := 'b', players1 := 'w', cidx := false,
    humanPlayer := 'w', botPlayer := 'b', boardStates := [],
    boardHistMov := 0, gameOver := false, winner := none }

/-- Claim C7, counterexample: decoding the 5-character state `"WZ00w"` —
whose single record carries the kind letter `Z`, outside the fixed table —
into a board holding a white king raises the decode error, yet the board's
piece placement is not "exactly as it was before the call": the piece list
was cleared before parsing and is left empty. -/
theorem claim7_failed_decode_clears_board :
    (loadPrevState kingOnlyBoard (some ['W', 'Z', '0', '0', 'w'])).2 =
        some PyError.notImplemented ∧
      (loadPrevState kingOnlyBoard (some ['W', 'Z', '0', '0', 'w'])).1.pieces = [] ∧
      kingOnlyBoard.pieces ≠ [] := by
  refine ⟨by decide, by decide, by decide⟩

/-- Claim C7, amended: when the decoded string consists of well-formed
records followed by a record whose kind letter is outside the fixed table,
`load_prev_state` raises `NotImplementedError` — but the decode is not
all-or-nothing with respect to the previous placement: the piece list is
cleared before parsing and the records preceding the malformed one remain
applied, so the board is left holding exactly that decoded prefix. -/
theorem claim7_amended_partial_decode (bd : Board) (ps : List Piece)
    (c0 cbad c2 c3 : Char) (rest : List Char)
    (hv : ∀ p ∈ ps, validPiece p) (hbad : kindOfChar cbad = none) :
    (loadPrevState bd
        (some (ps.flatMap pieceRecord ++ (c0 :: cbad :: c2 :: c3 :: rest)))).2 =
        some PyError.notImplemented ∧
      (loadPrevState bd
        (some (ps.flatMap pieceRecord ++ (c0 :: cbad :: c2 :: c3 :: rest)))).1.pieces =
        ps := by
  set st := ps.flatMap pieceRecord ++ (c0 :: cbad :: c2 :: c3 :: rest) with hst
  have hflen := flatMap_pieceRecord_length ps hv
  have hlen : st.length = 4 * ps.length + 4 + rest.length := by
    rw [hst, List.length_append, hflen]
    simp
    omega
  have hne : ¬st = [] := by
    intro he
    rw [he] at hlen
    simp at hlen
    omega
  have hdiv : st.length / 4 = ps.length + 1 + rest.length / 4 := by
    rw [hlen]
    omega
  have hdec : decodeRecords (st.length / 4) st [] = (ps, some PyError.notImplemented) := by
    rw [hdiv, hst]
    have hall := decodeRecords_all ps hv [] (c0 :: cbad :: c2 :: c3 :: rest)
      (rest.length / 4 + 1)
    rw [show ps.length + (rest.length / 4 + 1) = ps.length + 1 + rest.length / 4 by omega]
      at hall
    rw [hall]
    conv_lhs => rw [decodeRecords]
    simp [hbad]
  have hres : resolveState bd (some st) = st := by
    simp only [resolveState]
    rw [if_neg hne]
  constructor
  · show (loadPrevState bd (some st)).2 = _
    unfold loadPrevState
    rw [hres, hdec]
  · show (loadPrevState bd (some st)).1.pieces = ps
    unfold loadPrevState
    rw [hres, hdec]

/-- Claim C7, witness for the amended theorem: a well-formed king record
followed by a `Z`-record leaves exactly the king on the board, with the
decode error raised. -/
theorem claim7_amended_witness :
    (loadPrevState kingOnlyBoard
        (some ((([⟨"king", (0, 3), 'w'⟩] : List Piece).flatMap pieceRecord) ++
          ('W' :: 'Z' :: '0' :: '0' :: ['w'])))).2 = some PyError.notImplemented ∧
      (loadPrevState kingOnlyBoard
        (some ((([⟨"king", (0, 3), 'w'⟩] : List Piece).flatMap pieceRecord) ++
          ('W' :: 'Z' :: '0' :: '0' :: ['w'])))).1.pieces = [⟨"king", (0, 3), 'w'⟩] :=
  claim7_amended_partial_decode kingOnlyBoard [⟨"king", (0, 3), 'w'⟩]
    'W' 'Z' '0' '0' ['w'] (by decide) (by decide)

/-- Search values of `bot.py`: the integer scores of `score_board` together
with the `float("-inf")` / `float("inf")` bounds, ordered as Python orders
them.  Only comparisons, `max` and `min` are ever applied to them. -/
abbrev Score := WithBot (WithTop Int)

/-- An integral score as a search value. -/
def intScore (n : Int) : Score := ((n : WithTop Int) : Score)

/-- The terminal evaluation of `minimax` (`depth == 0 or board.game_over`):
on a finished game `±inf` according to the winner, otherwise
`board.score_board(player)`.  When `game_over` holds but `winner` is neither
player — `winner` being `None` included — the source reads the never-assigned
local `score` and raises `UnboundLocalError`; the model returns `⊥` there,
and the branch is unreachable from any board `Board.move` produces, since
`Board.move` never writes `game_over`. -/
def leafScore (bd : Board) (player : Char) : Score :=
  if bd.gameOver then
    if bd.winner = some bd.humanPlayer then ⊥
    else if bd.winner = some bd.botPlayer then ⊤
    else ⊥
  else intScore (scoreBoard bd player)

/-- The result triple of one `minimax` call: the score, the chosen piece and
the chosen move (the explored-state count and the log writer are diagnostics
that influence neither). -/
structure MMRes where
  score : Score
  bestPc : Option Piece
  bestMv : Option Move
deriving DecidableEq, Repr

/-- Stable insertion of a move into a descending-sorted list: the inserted
move goes in front of the first entry whose score it matches or exceeds.
`sortMovesDesc` below is therefore the stable descending sort — pointwise
equal to Python's stable `sorted(moves, key=lambda x: x.score, reverse=True)`. -/
def insMoveDesc (m : Move) : List Move → List Move
  | [] => [m]
  | x :: xs => if x.score ≤ m.score then m :: x :: xs else x :: insMoveDesc m xs

/-- `sorted(moves, key=lambda x: x.score, reverse=True)`. -/
def sortMovesDesc (l : List Move) : List Move := l.foldr insMoveDesc []

/-- The loop state of one `minimax` node: running best score, best piece,
best move, and the mutable bound — `a` in the maximizing branch, `b` in the
minimizing branch. -/
structure ABSt where
  best : Score
  bestPc : Option Piece
  bestMv : Option Move
  bound : Score
deriving DecidableEq, Repr

/-- The inner move loop of the maximizing branch of `minimax`: each move is
explored with the current bound, the best triple is updated on a strict
improvement, `a = max(a, max_score)` follows, and `a >= b` breaks out of the
move loop (only — the enclosing piece loop continues). -/
def runMax (f : Score → Move → Score) (pc : Piece) (b : Score) :
    List Move → ABSt → ABSt
  | [], s => s
  | m :: ms, s =>
    let sc := f s.bound m
    let s1 := if s.best < sc then ABSt.mk sc (some pc) (some m) s.bound else s
    let s2 := ABSt.mk s1.best s1.bestPc s1.bestMv (max s1.bound s1.best)
    if b ≤ s2.bound then s2 else runMax f pc b ms s2

/-- The inner move loop of the minimizing branch of `minimax`:
`b = min(b, min_score)` and `b <= a` breaks the move loop. -/
def runMin (f : Score → Move → Score) (pc : Piece) (a : Score) :
    List Move → ABSt → ABSt
  | [], s => s
  | m :: ms, s =>
    let sc := f s.bound m
    let s1 := if sc < s.best then ABSt.mk sc (some pc) (some m) s.bound else s
    let s2 := ABSt.mk s1.best s1.bestPc s1.bestMv (min s1.bound s1.best)
    if s2.bound ≤ a then s2 else runMin f pc a ms s2

/-- The sorted move list `minimax` iterates for one piece. -/
def nodeMoves (bd : Board) (pc : Piece) : List Move :=
  sortMovesDesc (calculateMoves pc bd.pieces)

/-- The alpha-beta value of the child reached by `(pc, m)` from `bd`, for a
maximizing parent: the parent passes its current `a` and fixed `b0`. -/
def abChildMax (recur : Board → Char → Score → Score → MMRes) (bd : Board)
    (b0 : Score) (pc : Piece) (a : Score) (m : Move) : Score :=
  (recur (movePos bd pc.pos m.endPos)
    (movePos bd pc.pos m.endPos).currentPlayer a b0).score

/-- The alpha-beta value of the child reached by `(pc, m)` from `bd`, for a
minimizing parent: the parent passes its fixed `a0` and current `b`. -/
def abChildMin (recur : Board → Char → Score → Score → MMRes) (bd : Board)
    (a0 : Score) (pc : Piece) (b : Score) (m : Move) : Score :=
  (recur (movePos bd pc.pos m.endPos)
    (movePos bd pc.pos m.endPos).currentPlayer a0 b).score

/-- The unpruned value of the child reached by `(pc, m)` from `bd`. -/
def pChild (recur : Board → Char → MMRes) (bd : Board) (pc : Piece)
    (m : Move) : Score :=
  (recur (movePos bd pc.pos m.endPos)
    (movePos bd pc.pos m.endPos).currentPlayer).score

/-- The piece loop of the maximizing branch of `minimax`. -/
def abFoldMax (fs : Piece → Score → Move → Score) (mvs : Piece → List Move)
    (b0 : Score) (pieces : List Piece) (s : ABSt) : ABSt :=
  pieces.foldl (fun s pc => runMax (fs pc) pc b0 (mvs pc) s) s

/-- The piece loop of the minimizing branch of `minimax`. -/
def abFoldMin (fs : Piece → Score → Move → Score) (mvs : Piece → List Move)
    (a0 : Score) (pieces : List Piece) (s : ABSt) : ABSt :=
  pieces.foldl (fun s pc => runMin (fs pc) pc a0 (mvs pc) s) s

/-- One non-terminal `minimax` node, parameterized by the recursive call for
the next depth: the maximizing branch when `player == board.bot_player`, the
minimizing branch otherwise.  Each child clones the board (pure values make
the deep copy implicit), applies the move through `Board.move`, and recurses
with the moved board's `current_player` and the current window. -/
def abNode (recur : Board → Char → Score → Score → MMRes) (bd : Board)
    (player : Char) (a0 b0 : Score) : MMRes :=
  if bd.gameOver then ⟨leafScore bd player, none, none⟩
  else if player = bd.botPlayer then
    let s := abFoldMax (abChildMax recur bd b0) (nodeMoves bd) b0
      (getPiecesForPlayer bd player) ⟨⊥, none, none, a0⟩
    ⟨s.best, s.bestPc, s.bestMv⟩
  else
    let s := abFoldMin (abChildMin recur bd a0) (nodeMoves bd) a0
      (getPiecesForPlayer bd player) ⟨⊤, none, none, b0⟩
    ⟨s.best, s.bestPc, s.bestMv⟩

/-- `minimax(board, depth, player, a, b)` of `bot.py`. -/
def minimaxAB : Nat → Board → Char → Score → Score → MMRes
  | 0 => fun bd player _ _ => ⟨leafScore bd player, none, none⟩
  | d + 1 => fun bd player a0 b0 => abNode (minimaxAB d) bd player a0 b0

/-- The inner move loop of a maximizing node of the exhaustive, unpruned
minimax: identical to `runMax` with the window bookkeeping and the cutoff
removed. -/
def runPMax (g : Move → Score) (pc : Piece) : List Move → MMRes → MMRes
  | [], s => s
  | m :: ms, s =>
    let sc := g m
    runPMax g pc ms (if s.score < sc then ⟨sc, some pc, some m⟩ else s)

/-- The inner move loop of a minimizing node of the unpruned minimax. -/
def runPMin (g : Move → Score) (pc : Piece) : List Move → MMRes → MMRes
  | [], s => s
  | m :: ms, s =>
    let sc := g m
    runPMin g pc ms (if sc < s.score then ⟨sc, some pc, some m⟩ else s)

/-- The piece loop of a maximizing node of the unpruned minimax. -/
def pFoldMax (gs : Piece → Move → Score) (mvs : Piece → List Move)
    (pieces : List Piece) (s : MMRes) : MMRes :=
  pieces.foldl (fun s pc => runPMax (gs pc) pc (mvs pc) s) s

/-- The piece loop of a minimizing node of the unpruned minimax. -/
def pFoldMin (gs : Piece → Move → Score) (mvs : Piece → List Move)
    (pieces : List Piece) (s : MMRes) : MMRes :=
  pieces.foldl (fun s pc => runPMin (gs pc) pc (mvs pc) s) s

/-- One non-terminal node of the unpruned minimax over the same game tree:
same piece order, same stable move ordering, same child boards, no pruning. -/
def pNode (recur : Board → Char → MMRes) (bd : Board) (player : Char) : MMRes :=
  if bd.gameOver then ⟨leafScore bd player, none, none⟩
  else if player = bd.botPlayer then
    pFoldMax (pChild recur bd) (nodeMoves bd) (getPiecesForPlayer bd player)
      ⟨⊥, none, none⟩
  else
    pFoldMin (pChild recur bd) (nodeMoves bd) (getPiecesForPlayer bd player)
      ⟨⊤, none, none⟩

/-- The exhaustive, unpruned minimax over the same game tree. -/
def plainMM : Nat → Board → Char → MMRes
  | 0 => fun bd player => ⟨leafScore bd player, none, none⟩
  | d + 1 => fun bd player => pNode (plainMM d) bd player

theorem ite_lt_eq_max (a b : Score) : (if a < b then b else a) = max a b := by
  by_cases h : a < b
  · rw [if_pos h, max_eq_right h.le]
  · rw [if_neg h, max_eq_left (le_of_not_lt h)]

theorem ite_gt_eq_min (a b : Score) : (if b < a then b else a) = min a b := by
  by_cases h : b < a
  · rw [if_pos h, min_eq_right h.le]
  · rw [if_neg h, min_eq_left (le_of_not_lt h)]

theorem foldl_max_init_le (l : List Score) : ∀ a : Score, a ≤ l.foldl max a := by
  induction l with
  | nil => intro a; simp
  | cons x xs ih =>
    intro a
    rw [List.foldl_cons]
    exact le_trans (le_max_left a x) (ih (max a x))

theorem foldl_max_mem_le (l : List Score) :
    ∀ (a x : Score), x ∈ l → x ≤ l.foldl max a := by
  induction l with
  | nil => intro a x hx; simp at hx
  | cons y ys ih =>
    intro a x hx
    rw [List.mem_cons] at hx
    rw [List.foldl_cons]
    rcases hx with hx | hx
    · subst hx
      exact le_trans (le_max_right a x) (foldl_max_init_le ys (max a x))
    · exact ih (max a y) x hx

theorem foldl_max_init_or_mem (l : List Score) :
    ∀ a : Score, l.foldl max a = a ∨ l.foldl max a ∈ l := by
  induction l with
  | nil => intro a; simp
  | cons x xs ih =>
    intro a
    rw [List.foldl_cons]
    rcases ih (max a x) with h | h
    · rw [h]
      by_cases hax : a < x
      · right
        rw [max_eq_right hax.le]
        exact List.mem_cons_self x xs
      · left
        exact max_eq_left (le_of_not_lt hax)
    · right
      exact List.mem_cons_of_mem x h

theorem foldl_min_init_le (l : List Score) : ∀ a : Score, l.foldl min a ≤ a := by
  induction l with
  | nil => intro a; simp
  | cons x xs ih =>
    intro a
    rw [List.foldl_cons]
    exact le_trans (ih (min a x)) (min_le_left a x)

theorem foldl_min_le_mem (l : List Score) :
    ∀ (a x : Score), x ∈ l → l.foldl min a ≤ x := by
  induction l with
  | nil => intro a x hx; simp at hx
  | cons y ys ih =>
    intro a x hx
    rw [List.mem_cons] at hx
    rw [List.foldl_cons]
    rcases hx with hx | hx
    · subst hx
      exact le_trans (foldl_min_init_le ys (min a x)) (min_le_right a x)
    · exact ih (min a y) x hx

theorem foldl_min_init_or_mem (l : List Score) :
    ∀ a : Score, l.foldl min a = a ∨ l.foldl min a ∈ l := by
  induction l with
  | nil => intro a; simp
  | cons x xs ih =>
    intro a
    rw [List.foldl_cons]
    rcases ih (min a x) with h | h
    · rw [h]
      by_cases hax : x < a
      · right
        rw [min_eq_right hax.le]
        exact List.mem_cons_self x xs
      · left
        exact min_eq_left (le_of_not_lt hax)
    · right
      exact List.mem_cons_of_mem x h

theorem runPMax_score (g : Move → Score) (pc : Piece) :
    ∀ (ms : List Move) (s : MMRes),
      (runPMax g pc ms s).score = (ms.map g).foldl max s.score := by
  intro ms
  induction ms with
  | nil => intro s; simp [runPMax]
  | cons m ms ih =>
    intro s
    show (runPMax g pc ms _).score = _
    rw [ih]
    by_cases h : s.score < g m
    · rw [if_pos h]
      simp [max_eq_right h.le]
    · rw [if_neg h]
      simp [max_eq_left (le_of_not_lt h)]

theorem runPMin_score (g : Move → Score) (pc : Piece) :
    ∀ (ms : List Move) (s : MMRes),
      (runPMin g pc ms s).score = (ms.map g).foldl min s.score := by
  intro ms
  induction ms with
  | nil => intro s; simp [runPMin]
  | cons m ms ih =>
    intro s
    show (runPMin g pc ms _).score = _
    rw [ih]
    by_cases h : g m < s.score
    · rw [if_pos h]
      simp [min_eq_right h.le]
    · rw [if_neg h]
      simp [min_eq_left (le_of_not_lt h)]

theorem runMax_cons_pos (f : Score → Move → Score) (pc : Piece) (b : Score)
    (m : Move) (ms : List Move) (s : ABSt) (h : s.best < f s.bound m) :
    runMax f pc b (m :: ms) s =
      if b ≤ max s.bound (f s.bound m) then
        ABSt.mk (f s.bound m) (some pc) (some m) (max s.bound (f s.bound m))
      else runMax f pc b ms
        (ABSt.mk (f s.bound m) (some pc) (some m) (max s.bound (f s.bound m))) := by
  simp only [runMax, if_pos h]

theorem runMax_cons_neg (f : Score → Move → Score) (pc : Piece) (b : Score)
    (m : Move) (ms : List Move) (s : ABSt) (h : ¬s.best < f s.bound m) :
    runMax f pc b (m :: ms) s =
      if b ≤ max s.bound s.best then
        ABSt.mk s.best s.bestPc s.bestMv (max s.bound s.best)
      else runMax f pc b ms
        (ABSt.mk s.best s.bestPc s.bestMv (max s.bound s.best)) := by
  simp only [runMax, if_neg h]

theorem runMax_best_mono (f : Score → Move → Score) (pc : Piece) (b : Score) :
    ∀ (ms : List Move) (s : ABSt), s.best ≤ (runMax f pc b ms s).best := by
  intro ms
  induction ms with
  | nil => intro s; exact le_refl _
  | cons m ms ih =>
    intro s
    by_cases hupd : s.best < f s.bound m
    · rw [runMax_cons_pos f pc b m ms s hupd]
      by_cases hcut : b ≤ max s.bound (f s.bound m)
      · rw [if_pos hcut]
        exact hupd.le
      · rw [if_neg hcut]
        exact le_trans hupd.le
          (ih ⟨f s.bound m, some pc, some m, max s.bound (f s.bound m)⟩)
    · rw [runMax_cons_neg f pc b m ms s hupd]
      by_cases hcut : b ≤ max s.bound s.best
      · rw [if_pos hcut]
      · rw [if_neg hcut]
        exact ih ⟨s.best, s.bestPc, s.bestMv, max s.bound s.best⟩

theorem max_absorb {a0 x y : Score} (h : x ≤ y) : max (max a0 x) y = max a0 y := by
  rw [max_assoc, max_eq_right h]

theorem runMax_bound_inv (f : Score → Move → Score) (pc : Piece) (b a0 : Score) :
    ∀ (ms : List Move) (s : ABSt), s.bound = max a0 s.best →
      (runMax f pc b ms s).bound = max a0 (runMax f pc b ms s).best := by
  intro ms
  induction ms with
  | nil => intro s h; exact h
  | cons m ms ih =>
    intro s h
    by_cases hupd : s.best < f s.bound m
    · rw [runMax_cons_pos f pc b m ms s hupd]
      have h2 : max s.bound (f s.bound m) = max a0 (f s.bound m) := by
        nth_rewrite 1 [h]
        exact max_absorb hupd.le
      by_cases hcut : b ≤ max s.bound (f s.bound m)
      · rw [if_pos hcut]
        exact h2
      · rw [if_neg hcut]
        exact ih _ h2
    · rw [runMax_cons_neg f pc b m ms s hupd]
      have h2 : max s.bound s.best = max a0 s.best := by
        nth_rewrite 1 [h]
        exact max_absorb (le_refl _)
      by_cases hcut : b ≤ max s.bound s.best
      · rw [if_pos hcut]
        exact h2
      · rw [if_neg hcut]
        exact ih _ h2

/-- The per-child contract a maximizing node's inner loop receives from the
induction hypothesis: `gm` is the child's unpruned value and `f a' m` its
alpha-beta value under the window `(a', b0)`. -/
def KMContractMax (gm : Score) (f : Score → Move → Score) (m : Move)
    (b0 : Score) : Prop :=
  ∀ a', a' < b0 → (b0 ≤ gm → b0 ≤ f a' m) ∧
    (gm < b0 → (f a' m = gm ∨ (gm ≤ a' ∧ f a' m ≤ a')))

theorem runMax_low (f : Score → Move → Score) (g : Move → Score) (pc : Piece)
    (a0 b0 : Score) (hab : a0 < b0) :
    ∀ (ms : List Move),
      (∀ m ∈ ms, KMContractMax (g m) f m b0) →
      (∀ m ∈ ms, g m ≤ a0) →
      ∀ s : ABSt, s.best ≤ a0 → s.bound = a0 →
        (runMax f pc b0 ms s).best ≤ a0 ∧ (runMax f pc b0 ms s).bound = a0 := by
  intro ms
  induction ms with
  | nil => intro _ _ s h1 h2; exact ⟨h1, h2⟩
  | cons m ms ih =>
    intro hc hle s h1 h2
    have hcm := hc m (List.mem_cons_self m ms)
    have hgm := hle m (List.mem_cons_self m ms)
    have hsc : f s.bound m ≤ a0 := by
      rcases (hcm s.bound (h2 ▸ hab)).2 (lt_of_le_of_lt hgm hab) with h | h
      · rw [h]; exact hgm
      · rw [← h2]; exact h.2
    have hcs : ∀ x ∈ ms, KMContractMax (g x) f x b0 :=
      fun x hx => hc x (List.mem_cons_of_mem m hx)
    have hls : ∀ x ∈ ms, g x ≤ a0 := fun x hx => hle x (List.mem_cons_of_mem m hx)
    by_cases hupd : s.best < f s.bound m
    · rw [runMax_cons_pos f pc b0 m ms s hupd]
      have hb2 : max s.bound (f s.bound m) = a0 := by
        nth_rewrite 1 [h2]
        rw [max_eq_left hsc]
      rw [hb2, if_neg (not_le.mpr hab)]
      exact ih hcs hls ⟨f s.bound m, some pc, some m, a0⟩ hsc rfl
    · rw [runMax_cons_neg f pc b0 m ms s hupd]
      have hb2 : max s.bound s.best = a0 := by
        rw [h2, max_eq_left h1]
      rw [hb2, if_neg (not_le.mpr hab)]
      exact ih hcs hls ⟨s.best, s.bestPc, s.bestMv, a0⟩ h1 rfl

theorem runMax_ub (f : Score → Move → Score) (g : Move → Score) (pc : Piece)
    (a0 b0 V : Score) (hVb : V < b0) :
    ∀ (ms : List Move),
      (∀ m ∈ ms, KMContractMax (g m) f m b0) →
      (∀ m ∈ ms, g m ≤ V) →
      ∀ s : ABSt, s.best ≤ V → s.bound = max a0 s.best → s.bound ≤ V →
        (runMax f pc b0 ms s).best ≤ V ∧
          (runMax f pc b0 ms s).bound = max a0 (runMax f pc b0 ms s).best ∧
          (runMax f pc b0 ms s).bound ≤ V := by
  intro ms
  induction ms with
  | nil => intro _ _ s h1 h2 h3; exact ⟨h1, h2, h3⟩
  | cons m ms ih =>
    intro hc hle s h1 h2 h3
    have hcm := hc m (List.mem_cons_self m ms)
    have hgm := hle m (List.mem_cons_self m ms)
    have hsc : f s.bound m ≤ V := by
      rcases (hcm s.bound (lt_of_le_of_lt h3 hVb)).2 (lt_of_le_of_lt hgm hVb) with h | h
      · rw [h]; exact hgm
      · exact le_trans h.2 h3
    have hcs : ∀ x ∈ ms, KMContractMax (g x) f x b0 :=
      fun x hx => hc x (List.mem_cons_of_mem m hx)
    have hls : ∀ x ∈ ms, g x ≤ V := fun x hx => hle x (List.mem_cons_of_mem m hx)
    by_cases hupd : s.best < f s.bound m
    · rw [runMax_cons_pos f pc b0 m ms s hupd]
      have hb2 : max s.bound (f s.bound m) = max a0 (f s.bound m) := by
        nth_rewrite 1 [h2]
        exact max_absorb hupd.le
      have hb3 : max s.bound (f s.bound m) ≤ V := max_le h3 hsc
      rw [if_neg (not_le.mpr (lt_of_le_of_lt hb3 hVb))]
      exact ih hcs hls _ hsc hb2 hb3
    · rw [runMax_cons_neg f pc b0 m ms s hupd]
      have hb2 : max s.bound s.best = max a0 s.best := by
        nth_rewrite 1 [h2]
        exact max_absorb (le_refl _)
      have hb3 : max s.bound s.best ≤ V := max_le h3 h1
      rw [if_neg (not_le.mpr (lt_of_le_of_lt hb3 hVb))]
      exact ih hcs hls _ h1 hb2 hb3

theorem runMax_reach (f : Score → Move → Score) (g : Move → Score) (pc : Piece)
    (a0 b0 V : Score) (hVb : V < b0) (haV : a0 < V) :
    ∀ (ms : List Move),
      (∀ m ∈ ms, KMContractMax (g m) f m b0) →
      (∀ m ∈ ms, g m ≤ V) →
      ∀ s : ABSt, s.best ≤ V → s.bound = max a0 s.best → s.bound ≤ V →
        (s.best = V ∨ ∃ m ∈ ms, g m = V) →
        (runMax f pc b0 ms s).best = V := by
  intro ms
  induction ms with
  | nil =>
    intro _ _ s h1 h2 h3 h4
    rcases h4 with h4 | h4
    · exact h4
    · obtain ⟨m, hm, _⟩ := h4
      simp at hm
  | cons m ms ih =>
    intro hc hle s h1 h2 h3 h4
    have hcs : ∀ x ∈ ms, KMContractMax (g x) f x b0 :=
      fun x hx => hc x (List.mem_cons_of_mem m hx)
    have hls : ∀ x ∈ ms, g x ≤ V := fun x hx => hle x (List.mem_cons_of_mem m hx)
    rcases h4 with h4 | h4
    · have hub := runMax_ub f g pc a0 b0 V hVb (m :: ms) hc hle s h1 h2 h3
      have hmono := runMax_best_mono f pc b0 (m :: ms) s
      exact le_antisymm hub.1 (h4 ▸ hmono)
    · simp only [List.mem_cons] at h4
      obtain ⟨m1, hm1, hgm1⟩ := h4
      rcases hm1 with hm1 | hm1
      · subst hm1
        by_cases hbv : s.bound < V
        · have hsc : f s.bound m1 = V := by
            rcases (hc m1 (List.mem_cons_self m1 ms) s.bound
                (lt_trans hbv hVb)).2 (hgm1 ▸ hVb) with h | h
            · rw [h, hgm1]
            · rw [hgm1] at h
              exact absurd h.1 (not_le.mpr hbv)
          have hupd : s.best < f s.bound m1 := by
            rw [hsc]
            exact lt_of_le_of_lt
              (le_trans (le_max_right a0 s.best) (le_of_eq h2.symm)) hbv
          rw [runMax_cons_pos f pc b0 m1 ms s hupd]
          have hb2 : max s.bound (f s.bound m1) = max a0 (f s.bound m1) := by
            nth_rewrite 1 [h2]
            exact max_absorb hupd.le
          have hb3 : max s.bound (f s.bound m1) ≤ V := by
            rw [hsc]; exact max_le h3 (le_refl V)
          rw [if_neg (not_le.mpr (lt_of_le_of_lt hb3 hVb))]
          have hrest := runMax_ub f g pc a0 b0 V hVb ms hcs hls
            ⟨f s.bound m1, some pc, some m1, max s.bound (f s.bound m1)⟩
            (le_of_eq hsc) hb2 hb3
          have hmono := runMax_best_mono f pc b0 ms
            ⟨f s.bound m1, some pc, some m1, max s.bound (f s.bound m1)⟩
          refine le_antisymm hrest.1 ?_
          calc V = f s.bound m1 := hsc.symm
            _ ≤ _ := hmono
        · have hbV : s.bound = V := le_antisymm h3 (le_of_not_lt hbv)
          have hmaxV : max a0 s.best = V := by rw [← h2, hbV]
          have hbest : s.best = V := by
            rcases max_cases a0 s.best with ⟨he, _⟩ | ⟨he, _⟩
            · rw [he] at hmaxV
              exact absurd (hmaxV ▸ haV) (lt_irrefl V)
            · rw [he] at hmaxV
              exact hmaxV
          have hub := runMax_ub f g pc a0 b0 V hVb (m1 :: ms) hc hle s h1 h2 h3
          have hmono := runMax_best_mono f pc b0 (m1 :: ms) s
          exact le_antisymm hub.1 (hbest ▸ hmono)
      · have hcm := hc m (List.mem_cons_self m ms)
        have hgm := hle m (List.mem_cons_self m ms)
        have hsc : f s.bound m ≤ V := by
          rcases (hcm s.bound (lt_of_le_of_lt h3 hVb)).2 (lt_of_le_of_lt hgm hVb) with h | h
          · rw [h]; exact hgm
          · exact le_trans h.2 h3
        by_cases hupd : s.best < f s.bound m
        · rw [runMax_cons_pos f pc b0 m ms s hupd]
          have hb2 : max s.bound (f s.bound m) = max a0 (f s.bound m) := by
            nth_rewrite 1 [h2]
            exact max_absorb hupd.le
          have hb3 : max s.bound (f s.bound m) ≤ V := max_le h3 hsc
          rw [if_neg (not_le.mpr (lt_of_le_of_lt hb3 hVb))]
          exact ih hcs hls _ hsc hb2 hb3 (Or.inr ⟨m1, hm1, hgm1⟩)
        · rw [runMax_cons_neg f pc b0 m ms s hupd]
          have hb2 : max s.bound s.best = max a0 s.best := by
            nth_rewrite 1 [h2]
            exact max_absorb (le_refl _)
          have hb3 : max s.bound s.best ≤ V := max_le h3 h1
          rw [if_neg (not_le.mpr (lt_of_le_of_lt hb3 hVb))]
          exact ih hcs hls _ h1 hb2 hb3 (Or.inr ⟨m1, hm1, hgm1⟩)

theorem runMax_geb (f : Score → Move → Score) (g : Move → Score) (pc : Piece)
    (a0 b0 : Score) (hab : a0 < b0) :
    ∀ (ms : List Move),
      (∀ m ∈ ms, KMContractMax (g m) f m b0) →
      ∀ s : ABSt, s.bound = max a0 s.best →
        (b0 ≤ s.best ∨ ∃ m ∈ ms, b0 ≤ g m) →
        b0 ≤ (runMax f pc b0 ms s).best := by
  intro ms
  induction ms with
  | nil =>
    intro _ s _ h4
    rcases h4 with h4 | h4
    · exact h4
    · obtain ⟨m, hm, _⟩ := h4
      simp at hm
  | cons m ms ih =>
    intro hc s h2 h4
    have hcs : ∀ x ∈ ms, KMContractMax (g x) f x b0 :=
      fun x hx => hc x (List.mem_cons_of_mem m hx)
    rcases h4 with h4 | h4
    · exact le_trans h4 (runMax_best_mono f pc b0 (m :: ms) s)
    · simp only [List.mem_cons] at h4
      obtain ⟨m1, hm1, hgm1⟩ := h4
      by_cases hbest : b0 ≤ s.best
      · exact le_trans hbest (runMax_best_mono f pc b0 (m :: ms) s)
      · have hblt : s.bound < b0 := by
          rw [h2]
          exact max_lt hab (lt_of_not_le hbest)
        rcases hm1 with hm1 | hm1
        · subst hm1
          have hsc : b0 ≤ f s.bound m1 :=
            (hc m1 (List.mem_cons_self m1 ms) s.bound hblt).1 hgm1
          have hupd : s.best < f s.bound m1 :=
            lt_of_lt_of_le (lt_of_not_le hbest) hsc
          rw [runMax_cons_pos f pc b0 m1 ms s hupd]
          by_cases hcut : b0 ≤ max s.bound (f s.bound m1)
          · rw [if_pos hcut]
            exact hsc
          · rw [if_neg hcut]
            exact le_trans hsc (runMax_best_mono f pc b0 ms
              ⟨f s.bound m1, some pc, some m1, max s.bound (f s.bound m1)⟩)
        · by_cases hupd : s.best < f s.bound m
          · rw [runMax_cons_pos f pc b0 m ms s hupd]
            have hb2 : max s.bound (f s.bound m) = max a0 (f s.bound m) := by
              nth_rewrite 1 [h2]
              exact max_absorb hupd.le
            by_cases hcut : b0 ≤ max s.bound (f s.bound m)
            · rw [if_pos hcut]
              rw [hb2] at hcut
              rcases max_cases a0 (f s.bound m) with ⟨he, _⟩ | ⟨he, _⟩
              · rw [he] at hcut
                exact absurd hcut (not_le.mpr hab)
              · rw [he] at hcut
                exact hcut
            · rw [if_neg hcut]
              exact ih hcs _ hb2 (Or.inr ⟨m1, hm1, hgm1⟩)
          · rw [runMax_cons_neg f pc b0 m ms s hupd]
            have hb2 : max s.bound s.best = max a0 s.best := by
              nth_rewrite 1 [h2]
              exact max_absorb (le_refl _)
            by_cases hcut : b0 ≤ max s.bound s.best
            · rw [if_pos hcut]
              rw [hb2] at hcut
              rcases max_cases a0 s.best with ⟨he, _⟩ | ⟨he, _⟩
              · rw [he] at hcut
                exact absurd hcut (not_le.mpr hab)
              · rw [he] at hcut
                exact hcut
            · rw [if_neg hcut]
              exact ih hcs _ hb2 (Or.inr ⟨m1, hm1, hgm1⟩)

theorem runMin_cons_pos (f : Score → Move → Score) (pc : Piece) (a : Score)
    (m : Move) (ms : List Move) (s : ABSt) (h : f s.bound m < s.best) :
    runMin f pc a (m :: ms) s =
      if min s.bound (f s.bound m) ≤ a then
        ABSt.mk (f s.bound m) (some pc) (some m) (min s.bound (f s.bound m))
      else runMin f pc a ms
        (ABSt.mk (f s.bound m) (some pc) (some m) (min s.bound (f s.bound m))) := by
  simp only [runMin, if_pos h]

theorem runMin_cons_neg (f : Score → Move → Score) (pc : Piece) (a : Score)
    (m : Move) (ms : List Move) (s : ABSt) (h : ¬f s.bound m < s.best) :
    runMin f pc a (m :: ms) s =
      if min s.bound s.best ≤ a then
        ABSt.mk s.best s.bestPc s.bestMv (min s.bound s.best)
      else runMin f pc a ms
        (ABSt.mk s.best s.bestPc s.bestMv (min s.bound s.best)) := by
  simp only [runMin, if_neg h]

theorem runMin_best_mono (f : Score → Move → Score) (pc : Piece) (a : Score) :
    ∀ (ms : List Move) (s : ABSt), (runMin f pc a ms s).best ≤ s.best := by
  intro ms
  induction ms with
  | nil => intro s; exact le_refl _
  | cons m ms ih =>
    intro s
    by_cases hupd : f s.bound m < s.best
    · rw [runMin_cons_pos f pc a m ms s hupd]
      by_cases hcut : min s.bound (f s.bound m) ≤ a
      · rw [if_pos hcut]
        exact hupd.le
      · rw [if_neg hcut]
        exact le_trans
          (ih ⟨f s.bound m, some pc, some m, min s.bound (f s.bound m)⟩) hupd.le
    · rw [runMin_cons_neg f pc a m ms s hupd]
      by_cases hcut : min s.bound s.best ≤ a
      · rw [if_pos hcut]
      · rw [if_neg hcut]
        exact ih ⟨s.best, s.bestPc, s.bestMv, min s.bound s.best⟩

theorem min_absorb {b0 x y : Score} (h : y ≤ x) : min (min b0 x) y = min b0 y := by
  rw [min_assoc, min_eq_right h]

theorem runMin_bound_inv (f : Score → Move → Score) (pc : Piece) (a b0 : Score) :
    ∀ (ms : List Move) (s : ABSt), s.bound = min b0 s.best →
      (runMin f pc a ms s).bound = min b0 (runMin f pc a ms s).best := by
  intro ms
  induction ms with
  | nil => intro s h; exact h
  | cons m ms ih =>
    intro s h
    by_cases hupd : f s.bound m < s.best
    · rw [runMin_cons_pos f pc a m ms s hupd]
      have h2 : min s.bound (f s.bound m) = min b0 (f s.bound m) := by
        nth_rewrite 1 [h]
        exact min_absorb hupd.le
      by_cases hcut : min s.bound (f s.bound m) ≤ a
      · rw [if_pos hcut]
        exact h2
      · rw [if_neg hcut]
        exact ih _ h2
    · rw [runMin_cons_neg f pc a m ms s hupd]
      have h2 : min s.bound s.best = min b0 s.best := by
        nth_rewrite 1 [h]
        exact min_absorb (le_refl _)
      by_cases hcut : min s.bound s.best ≤ a
      · rw [if_pos hcut]
        exact h2
      · rw [if_neg hcut]
        exact ih _ h2

/-- The per-child contract a minimizing node's inner loop receives from the
induction hypothesis: `gm` is the child's unpruned value and `f b' m` its
alpha-beta value under the window `(a0, b')`. -/
def KMContractMin (gm : Score) (f : Score → Move → Score) (m : Move)
    (a0 : Score) : Prop :=
  ∀ b', a0 < b' → (b' ≤ gm → b' ≤ f b' m) ∧
    (gm < b' → (f b' m = gm ∨ (gm ≤ a0 ∧ f b' m ≤ a0)))

theorem runMin_high (f : Score → Move → Score) (g : Move → Score) (pc : Piece)
    (a0 b0 : Score) (hab : a0 < b0) :
    ∀ (ms : List Move),
      (∀ m ∈ ms, KMContractMin (g m) f m a0) →
      (∀ m ∈ ms, b0 ≤ g m) →
      ∀ s : ABSt, b0 ≤ s.best → s.bound = b0 →
        b0 ≤ (runMin f pc a0 ms s).best ∧ (runMin f pc a0 ms s).bound = b0 := by
  intro ms
  induction ms with
  | nil => intro _ _ s h1 h2; exact ⟨h1, h2⟩
  | cons m ms ih =>
    intro hc hle s h1 h2
    have hcm := hc m (List.mem_cons_self m ms)
    have hgm := hle m (List.mem_cons_self m ms)
    have hsc : b0 ≤ f s.bound m := by
      rw [h2]
      exact (hcm b0 hab).1 hgm
    have hcs : ∀ x ∈ ms, KMContractMin (g x) f x a0 :=
      fun x hx => hc x (List.mem_cons_of_mem m hx)
    have hls : ∀ x ∈ ms, b0 ≤ g x := fun x hx => hle x (List.mem_cons_of_mem m hx)
    by_cases hupd : f s.bound m < s.best
    · rw [runMin_cons_pos f pc a0 m ms s hupd]
      have hb2 : min s.bound (f s.bound m) = b0 := by
        nth_rewrite 1 [h2]
        rw [min_eq_left hsc]
      rw [hb2, if_neg (not_le.mpr hab)]
      exact ih hcs hls ⟨f s.bound m, some pc, some m, b0⟩ hsc rfl
    · rw [runMin_cons_neg f pc a0 m ms s hupd]
      have hb2 : min s.bound s.best = b0 := by
        nth_rewrite 1 [h2]
        rw [min_eq_left h1]
      rw [hb2, if_neg (not_le.mpr hab)]
      exact ih hcs hls ⟨s.best, s.bestPc, s.bestMv, b0⟩ h1 rfl

theorem runMin_lb (f : Score → Move → Score) (g : Move → Score) (pc : Piece)
    (a0 b0 W : Score) (haW : a0 < W) :
    ∀ (ms : List Move),
      (∀ m ∈ ms, KMContractMin (g m) f m a0) →
      (∀ m ∈ ms, W ≤ g m) →
      ∀ s : ABSt, W ≤ s.best → s.bound = min b0 s.best → W ≤ s.bound →
        W ≤ (runMin f pc a0 ms s).best ∧
          (runMin f pc a0 ms s).bound = min b0 (runMin f pc a0 ms s).best ∧
          W ≤ (runMin f pc a0 ms s).bound := by
  intro ms
  induction ms with
  | nil => intro _ _ s h1 h2 h3; exact ⟨h1, h2, h3⟩
  | cons m ms ih =>
    intro hc hle s h1 h2 h3
    have hcm := hc m (List.mem_cons_self m ms)
    have hgm := hle m (List.mem_cons_self m ms)
    have hsc : W ≤ f s.bound m := by
      by_cases hg : g m < s.bound
      · rcases (hcm s.bound (lt_of_lt_of_le haW h3)).2 hg with h | h
        · rw [h]; exact hgm
        · exact absurd (le_trans hgm h.1) (not_le.mpr haW)
      · exact le_trans h3 ((hcm s.bound (lt_of_lt_of_le haW h3)).1 (le_of_not_lt hg))
    have hcs : ∀ x ∈ ms, KMContractMin (g x) f x a0 :=
      fun x hx => hc x (List.mem_cons_of_mem m hx)
    have hls : ∀ x ∈ ms, W ≤ g x := fun x hx => hle x (List.mem_cons_of_mem m hx)
    by_cases hupd : f s.bound m < s.best
    · rw [runMin_cons_pos f pc a0 m ms s hupd]
      have hb2 : min s.bound (f s.bound m) = min b0 (f s.bound m) := by
        nth_rewrite 1 [h2]
        exact min_absorb hupd.le
      have hb3 : W ≤ min s.bound (f s.bound m) := le_min h3 hsc
      rw [if_neg (not_le.mpr (lt_of_lt_of_le haW hb3))]
      exact ih hcs hls _ hsc hb2 hb3
    · rw [runMin_cons_neg f pc a0 m ms s hupd]
      have hb2 : min s.bound s.best = min b0 s.best := by
        nth_rewrite 1 [h2]
        exact min_absorb (le_refl _)
      have hb3 : W ≤ min s.bound s.best := le_min h3 h1
      rw [if_neg (not_le.mpr (lt_of_lt_of_le haW hb3))]
      exact ih hcs hls _ h1 hb2 hb3

theorem runMin_reach (f : Score → Move → Score) (g : Move → Score) (pc : Piece)
    (a0 b0 W : Score) (haW : a0 < W) (hWb : W < b0) :
    ∀ (ms : List Move),
      (∀ m ∈ ms, KMContractMin (g m) f m a0) →
      (∀ m ∈ ms, W ≤ g m) →
      ∀ s : ABSt, W ≤ s.best → s.bound = min b0 s.best → W ≤ s.bound →
        (s.best = W ∨ ∃ m ∈ ms, g m = W) →
        (runMin f pc a0 ms s).best = W := by
  intro ms
  induction ms with
  | nil =>
    intro _ _ s h1 h2 h3 h4
    rcases h4 with h4 | h4
    · exact h4
    · obtain ⟨m, hm, _⟩ := h4
      simp at hm
  | cons m ms ih =>
    intro hc hle s h1 h2 h3 h4
    have hcs : ∀ x ∈ ms, KMContractMin (g x) f x a0 :=
      fun x hx => hc x (List.mem_cons_of_mem m hx)
    have hls : ∀ x ∈ ms, W ≤ g x := fun x hx => hle x (List.mem_cons_of_mem m hx)
    rcases h4 with h4 | h4
    · have hlb := runMin_lb f g pc a0 b0 W haW (m :: ms) hc hle s h1 h2 h3
      have hmono := runMin_best_mono f pc a0 (m :: ms) s
      exact le_antisymm (h4 ▸ hmono) hlb.1
    · simp only [List.mem_cons] at h4
      obtain ⟨m1, hm1, hgm1⟩ := h4
      rcases hm1 with hm1 | hm1
      · subst hm1
        by_cases hbv : W < s.bound
        · have hsc : f s.bound m1 = W := by
            rcases (hc m1 (List.mem_cons_self m1 ms) s.bound
                (lt_trans haW hbv)).2 (hgm1 ▸ hbv) with h | h
            · rw [h, hgm1]
            · rw [hgm1] at h
              exact absurd h.1 (not_le.mpr haW)
          have hupd : f s.bound m1 < s.best := by
            rw [hsc]
            exact lt_of_lt_of_le hbv
              (le_trans (le_of_eq h2) (min_le_right b0 s.best))
          rw [runMin_cons_pos f pc a0 m1 ms s hupd]
          have hb2 : min s.bound (f s.bound m1) = min b0 (f s.bound m1) := by
            nth_rewrite 1 [h2]
            exact min_absorb hupd.le
          have hb3 : W ≤ min s.bound (f s.bound m1) := by
            rw [hsc]
            exact le_min h3 (le_refl W)
          rw [if_neg (not_le.mpr (lt_of_lt_of_le haW hb3))]
          have hrest := runMin_lb f g pc a0 b0 W haW ms hcs hls
            ⟨f s.bound m1, some pc, some m1, min s.bound (f s.bound m1)⟩
            (le_of_eq hsc.symm) hb2 hb3
          have hmono := runMin_best_mono f pc a0 ms
            ⟨f s.bound m1, some pc, some m1, min s.bound (f s.bound m1)⟩
          refine le_antisymm ?_ hrest.1
          calc (runMin f pc a0 ms _).best ≤ f s.bound m1 := hmono
            _ = W := hsc
        · have hbW : s.bound = W := le_antisymm (le_of_not_lt hbv) h3
          have hminW : min b0 s.best = W := by rw [← h2, hbW]
          have hbest : s.best = W := by
            rcases min_cases b0 s.best with ⟨he, _⟩ | ⟨he, _⟩
            · rw [he] at hminW
              exact absurd (hminW ▸ hWb) (lt_irrefl W)
            · rw [he] at hminW
              exact hminW
          have hlb := runMin_lb f g pc a0 b0 W haW (m1 :: ms) hc hle s h1 h2 h3
          have hmono := runMin_best_mono f pc a0 (m1 :: ms) s
          exact le_antisymm (hbest ▸ hmono) hlb.1
      · have hcm := hc m (List.mem_cons_self m ms)
        have hgm := hle m (List.mem_cons_self m ms)
        have hsc : W ≤ f s.bound m := by
          by_cases hg : g m < s.bound
          · rcases (hcm s.bound (lt_of_lt_of_le haW h3)).2 hg with h | h
            · rw [h]; exact hgm
            · exact absurd (le_trans hgm h.1) (not_le.mpr haW)
          · exact le_trans h3 ((hcm s.bound (lt_of_lt_of_le haW h3)).1 (le_of_not_lt hg))
        by_cases hupd : f s.bound m < s.best
        · rw [runMin_cons_pos f pc a0 m ms s hupd]
          have hb2 : min s.bound (f s.bound m) = min b0 (f s.bound m) := by
            nth_rewrite 1 [h2]
            exact min_absorb hupd.le
          have hb3 : W ≤ min s.bound (f s.bound m) := le_min h3 hsc
          rw [if_neg (not_le.mpr (lt_of_lt_of_le haW hb3))]
          exact ih hcs hls _ hsc hb2 hb3 (Or.inr ⟨m1, hm1, hgm1⟩)
        · rw [runMin_cons_neg f pc a0 m ms s hupd]
          have hb2 : min s.bound s.best = min b0 s.best := by
            nth_rewrite 1 [h2]
            exact min_absorb (le_refl _)
          have hb3 : W ≤ min s.bound s.best := le_min h3 h1
          rw [if_neg (not_le.mpr (lt_of_lt_of_le haW hb3))]
          exact ih hcs hls _ h1 hb2 hb3 (Or.inr ⟨m1, hm1, hgm1⟩)

theorem runMin_lea (f : Score → Move → Score) (g : Move → Score) (pc : Piece)
    (a0 b0 : Score) (hab : a0 < b0) :
    ∀ (ms : List Move),
      (∀ m ∈ ms, KMContractMin (g m) f m a0) →
      ∀ s : ABSt, s.bound = min b0 s.best →
        (s.best ≤ a0 ∨ ∃ m ∈ ms, g m ≤ a0) →
        (runMin f pc a0 ms s).best ≤ a0 := by
  intro ms
  induction ms with
  | nil =>
    intro _ s _ h4
    rcases h4 with h4 | h4
    · exact h4
    · obtain ⟨m, hm, _⟩ := h4
      simp at hm
  | cons m ms ih =>
    intro hc s h2 h4
    have hcs : ∀ x ∈ ms, KMContractMin (g x) f x a0 :=
      fun x hx => hc x (List.mem_cons_of_mem m hx)
    rcases h4 with h4 | h4
    · exact le_trans (runMin_best_mono f pc a0 (m :: ms) s) h4
    · simp only [List.mem_cons] at h4
      obtain ⟨m1, hm1, hgm1⟩ := h4
      by_cases hbest : s.best ≤ a0
      · exact le_trans (runMin_best_mono f pc a0 (m :: ms) s) hbest
      · have hblt : a0 < s.bound := by
          rw [h2]
          exact lt_min hab (lt_of_not_le hbest)
        rcases hm1 with hm1 | hm1
        · subst hm1
          have hsc : f s.bound m1 ≤ a0 := by
            rcases (hc m1 (List.mem_cons_self m1 ms) s.bound hblt).2
                (lt_of_le_of_lt hgm1 hblt) with h | h
            · rw [h]; exact hgm1
            · exact h.2
          have hupd : f s.bound m1 < s.best :=
            lt_of_le_of_lt hsc (lt_of_not_le hbest)
          rw [runMin_cons_pos f pc a0 m1 ms s hupd]
          by_cases hcut : min s.bound (f s.bound m1) ≤ a0
          · rw [if_pos hcut]
            exact hsc
          · rw [if_neg hcut]
            exact le_trans (runMin_best_mono f pc a0 ms
              ⟨f s.bound m1, some pc, some m1, min s.bound (f s.bound m1)⟩) hsc
        · by_cases hupd : f s.bound m < s.best
          · rw [runMin_cons_pos f pc a0 m ms s hupd]
            have hb2 : min s.bound (f s.bound m) = min b0 (f s.bound m) := by
              nth_rewrite 1 [h2]
              exact min_absorb hupd.le
            by_cases hcut : min s.bound (f s.bound m) ≤ a0
            · rw [if_pos hcut]
              rw [hb2] at hcut
              rcases min_cases b0 (f s.bound m) with ⟨he, _⟩ | ⟨he, _⟩
              · rw [he] at hcut
                exact absurd hcut (not_le.mpr hab)
              · rw [he] at hcut
                exact hcut
            · rw [if_neg hcut]
              exact ih hcs _ hb2 (Or.inr ⟨m1, hm1, hgm1⟩)
          · rw [runMin_cons_neg f pc a0 m ms s hupd]
            have hb2 : min s.bound s.best = min b0 s.best := by
              nth_rewrite 1 [h2]
              exact min_absorb (le_refl _)
            by_cases hcut : min s.bound s.best ≤ a0
            · rw [if_pos hcut]
              rw [hb2] at hcut
              rcases min_cases b0 s.best with ⟨he, _⟩ | ⟨he, _⟩
              · rw [he] at hcut
                exact absurd hcut (not_le.mpr hab)
              · rw [he] at hcut
                exact hcut
            · rw [if_neg hcut]
              exact ih hcs _ hb2 (Or.inr ⟨m1, hm1, hgm1⟩)

/-- The values of all children of one node, in exploration order. -/
def nodeFlat (gs : Piece → Move → Score) (mvs : Piece → List Move)
    (pieces : List Piece) : List Score :=
  pieces.flatMap (fun pc => (mvs pc).map (gs pc))

theorem pFoldMax_score (gs : Piece → Move → Score) (mvs : Piece → List Move) :
    ∀ (pieces : List Piece) (s : MMRes),
      (pFoldMax gs mvs pieces s).score =
        (nodeFlat gs mvs pieces).foldl max s.score := by
  intro pieces
  induction pieces with
  | nil => intro s; simp [pFoldMax, nodeFlat]
  | cons pc pieces ih =>
    intro s
    show (pFoldMax gs mvs pieces (runPMax (gs pc) pc (mvs pc) s)).score = _
    rw [ih, runPMax_score]
    unfold nodeFlat
    rw [List.flatMap_cons, List.foldl_append]

theorem pFoldMin_score (gs : Piece → Move → Score) (mvs : Piece → List Move) :
    ∀ (pieces : List Piece) (s : MMRes),
      (pFoldMin gs mvs pieces s).score =
        (nodeFlat gs mvs pieces).foldl min s.score := by
  intro pieces
  induction pieces with
  | nil => intro s; simp [pFoldMin, nodeFlat]
  | cons pc pieces ih =>
    intro s
    show (pFoldMin gs mvs pieces (runPMin (gs pc) pc (mvs pc) s)).score = _
    rw [ih, runPMin_score]
    unfold nodeFlat
    rw [List.flatMap_cons, List.foldl_append]

theorem abFoldMax_mono (fs : Piece → Score → Move → Score)
    (mvs : Piece → List Move) (b0 : Score) :
    ∀ (pieces : List Piece) (s : ABSt),
      s.best ≤ (abFoldMax fs mvs b0 pieces s).best := by
  intro pieces
  induction pieces with
  | nil => intro s; exact le_refl _
  | cons pc pieces ih =>
    intro s
    exact le_trans (runMax_best_mono (fs pc) pc b0 (mvs pc) s) (ih _)

theorem abFoldMax_bound_inv (fs : Piece → Score → Move → Score)
    (mvs : Piece → List Move) (a0 b0 : Score) :
    ∀ (pieces : List Piece) (s : ABSt), s.bound = max a0 s.best →
      (abFoldMax fs mvs b0 pieces s).bound =
        max a0 (abFoldMax fs mvs b0 pieces s).best := by
  intro pieces
  induction pieces with
  | nil => intro s h; exact h
  | cons pc pieces ih =>
    intro s h
    exact ih _ (runMax_bound_inv (fs pc) pc b0 a0 (mvs pc) s h)

theorem abFoldMin_mono (fs : Piece → Score → Move → Score)
    (mvs : Piece → List Move) (a0 : Score) :
    ∀ (pieces : List Piece) (s : ABSt),
      (abFoldMin fs mvs a0 pieces s).best ≤ s.best := by
  intro pieces
  induction pieces with
  | nil => intro s; exact le_refl _
  | cons pc pieces ih =>
    intro s
    exact le_trans (ih _) (runMin_best_mono (fs pc) pc a0 (mvs pc) s)

theorem abFoldMin_bound_inv (fs : Piece → Score → Move → Score)
    (mvs : Piece → List Move) (a0 b0 : Score) :
    ∀ (pieces : List Piece) (s : ABSt), s.bound = min b0 s.best →
      (abFoldMin fs mvs a0 pieces s).bound =
        min b0 (abFoldMin fs mvs a0 pieces s).best := by
  intro pieces
  induction pieces with
  | nil => intro s h; exact h
  | cons pc pieces ih =>
    intro s h
    exact ih _ (runMin_bound_inv (fs pc) pc a0 b0 (mvs pc) s h)

theorem nodeMax_geb (fs : Piece → Score → Move → Score)
    (gs : Piece → Move → Score) (mvs : Piece → List Move) (a0 b0 : Score)
    (hab : a0 < b0) :
    ∀ (pieces : List Piece),
      (∀ pc ∈ pieces, ∀ m ∈ mvs pc, KMContractMax (gs pc m) (fs pc) m b0) →
      ∀ s : ABSt, s.bound = max a0 s.best →
        (b0 ≤ s.best ∨ ∃ pc ∈ pieces, ∃ m ∈ mvs pc, b0 ≤ gs pc m) →
        b0 ≤ (abFoldMax fs mvs b0 pieces s).best := by
  intro pieces
  induction pieces with
  | nil =>
    intro _ s _ h4
    rcases h4 with h4 | h4
    · exact h4
    · obtain ⟨pc, hpc, _⟩ := h4
      simp at hpc
  | cons pc pieces ih =>
    intro hc s h2 h4
    have hcs : ∀ x ∈ pieces, ∀ m ∈ mvs x, KMContractMax (gs x m) (fs x) m b0 :=
      fun x hx => hc x (List.mem_cons_of_mem pc hx)
    have hinv := runMax_bound_inv (fs pc) pc b0 a0 (mvs pc) s h2
    rcases h4 with h4 | h4
    · exact le_trans h4 (abFoldMax_mono fs mvs b0 (pc :: pieces) s)
    · obtain ⟨pc1, hpc1, m1, hm1, hgm1⟩ := h4
      simp only [List.mem_cons] at hpc1
      rcases hpc1 with hpc1 | hpc1
      · subst hpc1
        have hgeb := runMax_geb (fs pc1) (gs pc1) pc1 a0 b0 hab (mvs pc1)
          (hc pc1 (List.mem_cons_self pc1 pieces)) s h2 (Or.inr ⟨m1, hm1, hgm1⟩)
        exact le_trans hgeb (abFoldMax_mono fs mvs b0 pieces _)
      · exact ih hcs _ hinv (Or.inr ⟨pc1, hpc1, m1, hm1, hgm1⟩)

theorem nodeMax_low (fs : Piece → Score → Move → Score)
    (gs : Piece → Move → Score) (mvs : Piece → List Move) (a0 b0 : Score)
    (hab : a0 < b0) :
    ∀ (pieces : List Piece),
      (∀ pc ∈ pieces, ∀ m ∈ mvs pc, KMContractMax (gs pc m) (fs pc) m b0) →
      (∀ pc ∈ pieces, ∀ m ∈ mvs pc, gs pc m ≤ a0) →
      ∀ s : ABSt, s.best ≤ a0 → s.bound = a0 →
        (abFoldMax fs mvs b0 pieces s).best ≤ a0 ∧
          (abFoldMax fs mvs b0 pieces s).bound = a0 := by
  intro pieces
  induction pieces with
  | nil => intro _ _ s h1 h2; exact ⟨h1, h2⟩
  | cons pc pieces ih =>
    intro hc hle s h1 h2
    have hstep := runMax_low (fs pc) (gs pc) pc a0 b0 hab (mvs pc)
      (hc pc (List.mem_cons_self pc pieces)) (hle pc (List.mem_cons_self pc pieces))
      s h1 h2
    exact ih (fun x hx => hc x (List.mem_cons_of_mem pc hx))
      (fun x hx => hle x (List.mem_cons_of_mem pc hx)) _ hstep.1 hstep.2

theorem nodeMax_ub (fs : Piece → Score → Move → Score)
    (gs : Piece → Move → Score) (mvs : Piece → List Move) (a0 b0 V : Score)
    (hVb : V < b0) :
    ∀ (pieces : List Piece),
      (∀ pc ∈ pieces, ∀ m ∈ mvs pc, KMContractMax (gs pc m) (fs pc) m b0) →
      (∀ pc ∈ pieces, ∀ m ∈ mvs pc, gs pc m ≤ V) →
      ∀ s : ABSt, s.best ≤ V → s.bound = max a0 s.best → s.bound ≤ V →
        (abFoldMax fs mvs b0 pieces s).best ≤ V ∧
          (abFoldMax fs mvs b0 pieces s).bound =
            max a0 (abFoldMax fs mvs b0 pieces s).best ∧
          (abFoldMax fs mvs b0 pieces s).bound ≤ V := by
  intro pieces
  induction pieces with
  | nil => intro _ _ s h1 h2 h3; exact ⟨h1, h2, h3⟩
  | cons pc pieces ih =>
    intro hc hle s h1 h2 h3
    have hstep := runMax_ub (fs pc) (gs pc) pc a0 b0 V hVb (mvs pc)
      (hc pc (List.mem_cons_self pc pieces)) (hle pc (List.mem_cons_self pc pieces))
      s h1 h2 h3
    exact ih (fun x hx => hc x (List.mem_cons_of_mem pc hx))
      (fun x hx => hle x (List.mem_cons_of_mem pc hx)) _ hstep.1 hstep.2.1 hstep.2.2

theorem nodeMax_reach (fs : Piece → Score → Move → Score)
    (gs : Piece → Move → Score) (mvs : Piece → List Move) (a0 b0 V : Score)
    (hVb : V < b0) (haV : a0 < V) :
    ∀ (pieces : List Piece),
      (∀ pc ∈ pieces, ∀ m ∈ mvs pc, KMContractMax (gs pc m) (fs pc) m b0) →
      (∀ pc ∈ pieces, ∀ m ∈ mvs pc, gs pc m ≤ V) →
      ∀ s : ABSt, s.best ≤ V → s.bound = max a0 s.best → s.bound ≤ V →
        (s.best = V ∨ ∃ pc ∈ pieces, ∃ m ∈ mvs pc, gs pc m = V) →
        (abFoldMax fs mvs b0 pieces s).best = V := by
  intro pieces
  induction pieces with
  | nil =>
    intro _ _ s h1 h2 h3 h4
    rcases h4 with h4 | h4
    · exact h4
    · obtain ⟨pc, hpc, _⟩ := h4
      simp at hpc
  | cons pc pieces ih =>
    intro hc hle s h1 h2 h3 h4
    have hcs : ∀ x ∈ pieces, ∀ m ∈ mvs x, KMContractMax (gs x m) (fs x) m b0 :=
      fun x hx => hc x (List.mem_cons_of_mem pc hx)
    have hls : ∀ x ∈ pieces, ∀ m ∈ mvs x, gs x m ≤ V :=
      fun x hx => hle x (List.mem_cons_of_mem pc hx)
    have hstep := runMax_ub (fs pc) (gs pc) pc a0 b0 V hVb (mvs pc)
      (hc pc (List.mem_cons_self pc pieces)) (hle pc (List.mem_cons_self pc pieces))
      s h1 h2 h3
    rcases h4 with h4 | h4
    · have hreach := runMax_reach (fs pc) (gs pc) pc a0 b0 V hVb haV (mvs pc)
        (hc pc (List.mem_cons_self pc pieces)) (hle pc (List.mem_cons_self pc pieces))
        s h1 h2 h3 (Or.inl h4)
      exact ih hcs hls _ hstep.1 hstep.2.1 hstep.2.2 (Or.inl hreach)
    · obtain ⟨pc1, hpc1, m1, hm1, hgm1⟩ := h4
      simp only [List.mem_cons] at hpc1
      rcases hpc1 with hpc1 | hpc1
      · subst hpc1
        have hreach := runMax_reach (fs pc1) (gs pc1) pc1 a0 b0 V hVb haV (mvs pc1)
          (hc pc1 (List.mem_cons_self pc1 pieces))
          (hle pc1 (List.mem_cons_self pc1 pieces))
          s h1 h2 h3 (Or.inr ⟨m1, hm1, hgm1⟩)
        exact ih hcs hls _ hstep.1 hstep.2.1 hstep.2.2 (Or.inl hreach)
      · exact ih hcs hls _ hstep.1 hstep.2.1 hstep.2.2
          (Or.inr ⟨pc1, hpc1, m1, hm1, hgm1⟩)

theorem nodeMin_lea (fs : Piece → Score → Move → Score)
    (gs : Piece → Move → Score) (mvs : Piece → List Move) (a0 b0 : Score)
    (hab : a0 < b0) :
    ∀ (pieces : List Piece),
      (∀ pc ∈ pieces, ∀ m ∈ mvs pc, KMContractMin (gs pc m) (fs pc) m a0) →
      ∀ s : ABSt, s.bound = min b0 s.best →
        (s.best ≤ a0 ∨ ∃ pc ∈ pieces, ∃ m ∈ mvs pc, gs pc m ≤ a0) →
        (abFoldMin fs mvs a0 pieces s).best ≤ a0 := by
  intro pieces
  induction pieces with
  | nil =>
    intro _ s _ h4
    rcases h4 with h4 | h4
    · exact h4
    · obtain ⟨pc, hpc, _⟩ := h4
      simp at hpc
  | cons pc pieces ih =>
    intro hc s h2 h4
    have hcs : ∀ x ∈ pieces, ∀ m ∈ mvs x, KMContractMin (gs x m) (fs x) m a0 :=
      fun x hx => hc x (List.mem_cons_of_mem pc hx)
    have hinv := runMin_bound_inv (fs pc) pc a0 b0 (mvs pc) s h2
    rcases h4 with h4 | h4
    · exact le_trans (abFoldMin_mono fs mvs a0 (pc :: pieces) s) h4
    · obtain ⟨pc1, hpc1, m1, hm1, hgm1⟩ := h4
      simp only [List.mem_cons] at hpc1
      rcases hpc1 with hpc1 | hpc1
      · subst hpc1
        have hlea := runMin_lea (fs pc1) (gs pc1) pc1 a0 b0 hab (mvs pc1)
          (hc pc1 (List.mem_cons_self pc1 pieces)) s h2 (Or.inr ⟨m1, hm1, hgm1⟩)
        exact le_trans (abFoldMin_mono fs mvs a0 pieces _) hlea
      · exact ih hcs _ hinv (Or.inr ⟨pc1, hpc1, m1, hm1, hgm1⟩)

theorem nodeMin_high (fs : Piece → Score → Move → Score)
    (gs : Piece → Move → Score) (mvs : Piece → List Move) (a0 b0 : Score)
    (hab : a0 < b0) :
    ∀ (pieces : List Piece),
      (∀ pc ∈ pieces, ∀ m ∈ mvs pc, KMContractMin (gs pc m) (fs pc) m a0) →
      (∀ pc ∈ pieces, ∀ m ∈ mvs pc, b0 ≤ gs pc m) →
      ∀ s : ABSt, b0 ≤ s.best → s.bound = b0 →
        b0 ≤ (abFoldMin fs mvs a0 pieces s).best ∧
          (abFoldMin fs mvs a0 pieces s).bound = b0 := by
  intro pieces
  induction pieces with
  | nil => intro _ _ s h1 h2; exact ⟨h1, h2⟩
  | cons pc pieces ih =>
    intro hc hle s h1 h2
    have hstep := runMin_high (fs pc) (gs pc) pc a0 b0 hab (mvs pc)
      (hc pc (List.mem_cons_self pc pieces)) (hle pc (List.mem_cons_self pc pieces))
      s h1 h2
    exact ih (fun x hx => hc x (List.mem_cons_of_mem pc hx))
      (fun x hx => hle x (List.mem_cons_of_mem pc hx)) _ hstep.1 hstep.2

theorem nodeMin_lb (fs : Piece → Score → Move → Score)
    (gs : Piece → Move → Score) (mvs : Piece → List Move) (a0 b0 W : Score)
    (haW : a0 < W) :
    ∀ (pieces : List Piece),
      (∀ pc ∈ pieces, ∀ m ∈ mvs pc, KMContractMin (gs pc m) (fs pc) m a0) →
      (∀ pc ∈ pieces, ∀ m ∈ mvs pc, W ≤ gs pc m) →
      ∀ s : ABSt, W ≤ s.best → s.bound = min b0 s.best → W ≤ s.bound →
        W ≤ (abFoldMin fs mvs a0 pieces s).best ∧
          (abFoldMin fs mvs a0 pieces s).bound =
            min b0 (abFoldMin fs mvs a0 pieces s).best ∧
          W ≤ (abFoldMin fs mvs a0 pieces s).bound := by
  intro pieces
  induction pieces with
  | nil => intro _ _ s h1 h2 h3; exact ⟨h1, h2, h3⟩
  | cons pc pieces ih =>
    intro hc hle s h1 h2 h3
    have hstep := runMin_lb (fs pc) (gs pc) pc a0 b0 W haW (mvs pc)
      (hc pc (List.mem_cons_self pc pieces)) (hle pc (List.mem_cons_self pc pieces))
      s h1 h2 h3
    exact ih (fun x hx => hc x (List.mem_cons_of_mem pc hx))
      (fun x hx => hle x (List.mem_cons_of_mem pc hx)) _ hstep.1 hstep.2.1 hstep.2.2

theorem nodeMin_reach (fs : Piece → Score → Move → Score)
    (gs : Piece → Move → Score) (mvs : Piece → List Move) (a0 b0 W : Score)
    (haW : a0 < W) (hWb : W < b0) :
    ∀ (pieces : List Piece),
      (∀ pc ∈ pieces, ∀ m ∈ mvs pc, KMContractMin (gs pc m) (fs pc) m a0) →
      (∀ pc ∈ pieces, ∀ m ∈ mvs pc, W ≤ gs pc m) →
      ∀ s : ABSt, W ≤ s.best → s.bound = min b0 s.best → W ≤ s.bound →
        (s.best = W ∨ ∃ pc ∈ pieces, ∃ m ∈ mvs pc, gs pc m = W) →
        (abFoldMin fs mvs a0 pieces s).best = W := by
  intro pieces
  induction pieces with
  | nil =>
    intro _ _ s h1 h2 h3 h4
    rcases h4 with h4 | h4
    · exact h4
    · obtain ⟨pc, hpc, _⟩ := h4
      simp at hpc
  | cons pc pieces ih =>
    intro hc hle s h1 h2 h3 h4
    have hcs : ∀ x ∈ pieces, ∀ m ∈ mvs x, KMContractMin (gs x m) (fs x) m a0 :=
      fun x hx => hc x (List.mem_cons_of_mem pc hx)
    have hls : ∀ x ∈ pieces, ∀ m ∈ mvs x, W ≤ gs x m :=
      fun x hx => hle x (List.mem_cons_of_mem pc hx)
    have hstep := runMin_lb (fs pc) (gs pc) pc a0 b0 W haW (mvs pc)
      (hc pc (List.mem_cons_self pc pieces)) (hle pc (List.mem_cons_self pc pieces))
      s h1 h2 h3
    rcases h4 with h4 | h4
    · have hreach := runMin_reach (fs pc) (gs pc) pc a0 b0 W haW hWb (mvs pc)
        (hc pc (List.mem_cons_self pc pieces)) (hle pc (List.mem_cons_self pc pieces))
        s h1 h2 h3 (Or.inl h4)
      exact ih hcs hls _ hstep.1 hstep.2.1 hstep.2.2 (Or.inl hreach)
    · obtain ⟨pc1, hpc1, m1, hm1, hgm1⟩ := h4
      simp only [List.mem_cons] at hpc1
      rcases hpc1 with hpc1 | hpc1
      · subst hpc1
        have hreach := runMin_reach (fs pc1) (gs pc1) pc1 a0 b0 W haW hWb (mvs pc1)
          (hc pc1 (List.mem_cons_self pc1 pieces))
          (hle pc1 (List.mem_cons_self pc1 pieces))
          s h1 h2 h3 (Or.inr ⟨m1, hm1, hgm1⟩)
        exact ih hcs hls _ hstep.1 hstep.2.1 hstep.2.2 (Or.inl hreach)
      · exact ih hcs hls _ hstep.1 hstep.2.1 hstep.2.2
          (Or.inr ⟨pc1, hpc1, m1, hm1, hgm1⟩)

theorem abNode_score_max (recur : Board → Char → Score → Score → MMRes)
    (bd : Board) (player : Char) (a b : Score) (hgo : ¬bd.gameOver)
    (hbot : player = bd.botPlayer) :
    (abNode recur bd player a b).score =
      (abFoldMax (abChildMax recur bd b) (nodeMoves bd) b
        (getPiecesForPlayer bd player) ⟨⊥, none, none, a⟩).best := by
  rw [abNode, if_neg hgo, if_pos hbot]

theorem abNode_score_min (recur : Board → Char → Score → Score → MMRes)
    (bd : Board) (player : Char) (a b : Score) (hgo : ¬bd.gameOver)
    (hbot : ¬player = bd.botPlayer) :
    (abNode recur bd player a b).score =
      (abFoldMin (abChildMin recur bd a) (nodeMoves bd) a
        (getPiecesForPlayer bd player) ⟨⊤, none, none, b⟩).best := by
  rw [abNode, if_neg hgo, if_neg hbot]

theorem pNode_score_max (recur : Board → Char → MMRes) (bd : Board)
    (player : Char) (hgo : ¬bd.gameOver) (hbot : player = bd.botPlayer) :
    (pNode recur bd player).score =
      (nodeFlat (pChild recur bd) (nodeMoves bd)
        (getPiecesForPlayer bd player)).foldl max ⊥ := by
  rw [pNode, if_neg hgo, if_pos hbot]
  exact pFoldMax_score _ _ _ _

theorem pNode_score_min (recur : Board → Char → MMRes) (bd : Board)
    (player : Char) (hgo : ¬bd.gameOver) (hbot : ¬player = bd.botPlayer) :
    (pNode recur bd player).score =
      (nodeFlat (pChild recur bd) (nodeMoves bd)
        (getPiecesForPlayer bd player)).foldl min ⊤ := by
  rw [pNode, if_neg hgo, if_neg hbot]
  exact pFoldMin_score _ _ _ _

/-- The Knuth–Moore bounds for this `minimax`: called with a window
`a < b`, the pruned score is exact whenever the exhaustive score lies below
`b` and above `a`, fails high together with the exhaustive score, and fails
low only when the exhaustive score is at most `a`. -/
theorem km_bounds : ∀ (d : Nat) (bd : Board) (player : Char) (a b : Score),
    a < b →
    (b ≤ (plainMM d bd player).score → b ≤ (minimaxAB d bd player a b).score) ∧
    ((plainMM d bd player).score < b →
      ((minimaxAB d bd player a b).score = (plainMM d bd player).score ∨
        ((plainMM d bd player).score ≤ a ∧
          (minimaxAB d bd player a b).score ≤ a))) := by
  intro d
  induction d with
  | zero =>
    intro bd player a b hab
    exact ⟨fun h => h, fun _ => Or.inl rfl⟩
  | succ d ihd =>
    intro bd player a b hab
    by_cases hgo : bd.gameOver
    · have e1 : minimaxAB (d + 1) bd player a b = ⟨leafScore bd player, none, none⟩ := by
        show abNode (minimaxAB d) bd player a b = _
        rw [abNode, if_pos hgo]
      have e2 : plainMM (d + 1) bd player = ⟨leafScore bd player, none, none⟩ := by
        show pNode (plainMM d) bd player = _
        rw [pNode, if_pos hgo]
      rw [e1, e2]
      exact ⟨fun h => h, fun _ => Or.inl rfl⟩
    · by_cases hbot : player = bd.botPlayer
      · -- maximizing node
        have eAB : (minimaxAB (d + 1) bd player a b).score =
            (abFoldMax (abChildMax (minimaxAB d) bd b) (nodeMoves bd) b
              (getPiecesForPlayer bd player) ⟨⊥, none, none, a⟩).best :=
          abNode_score_max (minimaxAB d) bd player a b hgo hbot
        have eP : (plainMM (d + 1) bd player).score =
            (nodeFlat (pChild (plainMM d) bd) (nodeMoves bd)
              (getPiecesForPlayer bd player)).foldl max ⊥ :=
          pNode_score_max (plainMM d) bd player hgo hbot
        have HC : ∀ pc ∈ getPiecesForPlayer bd player, ∀ m ∈ nodeMoves bd pc,
            KMContractMax (pChild (plainMM d) bd pc m)
              (abChildMax (minimaxAB d) bd b pc) m b := by
          intro pc _ m _ a' ha'
          exact ihd (movePos bd pc.pos m.endPos)
            (movePos bd pc.pos m.endPos).currentPlayer a' b ha'
        have hall : ∀ pc ∈ getPiecesForPlayer bd player, ∀ m ∈ nodeMoves bd pc,
            pChild (plainMM d) bd pc m ≤ (plainMM (d + 1) bd player).score := by
          intro pc hpc m hm
          rw [eP]
          exact foldl_max_mem_le _ ⊥ _
            (List.mem_flatMap.mpr ⟨pc, hpc, List.mem_map_of_mem _ hm⟩)
        have hbinv : (⟨⊥, none, none, a⟩ : ABSt).bound =
            max a (⟨⊥, none, none, a⟩ : ABSt).best := (max_eq_left bot_le).symm
        constructor
        · intro hbV
          rw [eAB]
          rcases foldl_max_init_or_mem (nodeFlat (pChild (plainMM d) bd)
              (nodeMoves bd) (getPiecesForPlayer bd player)) ⊥ with h0 | hmem
          · rw [eP, h0] at hbV
            exact absurd (lt_of_lt_of_le hab hbV) not_lt_bot
          · obtain ⟨pc, hpc, hmm⟩ := List.mem_flatMap.mp hmem
            obtain ⟨m, hm, hgm⟩ := List.mem_map.mp hmm
            refine nodeMax_geb _ _ _ a b hab _ HC _ hbinv
              (Or.inr ⟨pc, hpc, m, hm, ?_⟩)
            rw [hgm, ← eP]
            exact hbV
        · intro hVb
          rcases le_or_lt (plainMM (d + 1) bd player).score a with hVa | haV
          · right
            refine ⟨hVa, ?_⟩
            rw [eAB]
            exact (nodeMax_low _ _ _ a b hab _ HC
              (fun pc hpc m hm => le_trans (hall pc hpc m hm) hVa) _ bot_le rfl).1
          · left
            rw [eAB]
            have hVmem : ∃ pc ∈ getPiecesForPlayer bd player, ∃ m ∈ nodeMoves bd pc,
                pChild (plainMM d) bd pc m = (plainMM (d + 1) bd player).score := by
              rcases foldl_max_init_or_mem (nodeFlat (pChild (plainMM d) bd)
                  (nodeMoves bd) (getPiecesForPlayer bd player)) ⊥ with h0 | hmem
              · rw [eP, h0] at haV
                exact absurd (lt_of_le_of_lt bot_le haV) (lt_irrefl _)
              · obtain ⟨pc, hpc, hmm⟩ := List.mem_flatMap.mp hmem
                obtain ⟨m, hm, hgm⟩ := List.mem_map.mp hmm
                exact ⟨pc, hpc, m, hm, by rw [hgm, ← eP]⟩
            exact nodeMax_reach _ _ _ a b _ hVb haV _ HC hall _ bot_le hbinv
              haV.le (Or.inr hVmem)
      · -- minimizing node
        have eAB : (minimaxAB (d + 1) bd player a b).score =
            (abFoldMin (abChildMin (minimaxAB d) bd a) (nodeMoves bd) a
              (getPiecesForPlayer bd player) ⟨⊤, none, none, b⟩).best :=
          abNode_score_min (minimaxAB d) bd player a b hgo hbot
        have eP : (plainMM (d + 1) bd player).score =
            (nodeFlat (pChild (plainMM d) bd) (nodeMoves bd)
              (getPiecesForPlayer bd player)).foldl min ⊤ :=
          pNode_score_min (plainMM d) bd player hgo hbot
        have HC : ∀ pc ∈ getPiecesForPlayer bd player, ∀ m ∈ nodeMoves bd pc,
            KMContractMin (pChild (plainMM d) bd pc m)
              (abChildMin (minimaxAB d) bd a pc) m a := by
          intro pc _ m _ b' hb'
          exact ihd (movePos bd pc.pos m.endPos)
            (movePos bd pc.pos m.endPos).currentPlayer a b' hb'
        have hall : ∀ pc ∈ getPiecesForPlayer bd player, ∀ m ∈ nodeMoves bd pc,
            (plainMM (d + 1) bd player).score ≤ pChild (plainMM d) bd pc m := by
          intro pc hpc m hm
          rw [eP]
          exact foldl_min_le_mem _ ⊤ _
            (List.mem_flatMap.mpr ⟨pc, hpc, List.mem_map_of_mem _ hm⟩)
        have hbinv : (⟨⊤, none, none, b⟩ : ABSt).bound =
            min b (⟨⊤, none, none, b⟩ : ABSt).best := (min_eq_left le_top).symm
        have hWmem : (plainMM (d + 1) bd player).score < ⊤ →
            ∃ pc ∈ getPiecesForPlayer bd player, ∃ m ∈ nodeMoves bd pc,
              pChild (plainMM d) bd pc m = (plainMM (d + 1) bd player).score := by
          intro hWt
          rcases foldl_min_init_or_mem (nodeFlat (pChild (plainMM d) bd)
              (nodeMoves bd) (getPiecesForPlayer bd player)) ⊤ with h0 | hmem
          · rw [eP, h0] at hWt
            exact absurd hWt (lt_irrefl _)
          · obtain ⟨pc, hpc, hmm⟩ := List.mem_flatMap.mp hmem
            obtain ⟨m, hm, hgm⟩ := List.mem_map.mp hmm
            exact ⟨pc, hpc, m, hm, by rw [hgm, ← eP]⟩
        have Q1 : (plainMM (d + 1) bd player).score ≤ a →
            (minimaxAB (d + 1) bd player a b).score ≤ a := by
          intro hWa
          rw [eAB]
          obtain ⟨pc, hpc, m, hm, hgm⟩ := hWmem
            (lt_of_le_of_lt hWa (lt_of_lt_of_le hab le_top))
          exact nodeMin_lea _ _ _ a b hab _ HC _ hbinv
            (Or.inr ⟨pc, hpc, m, hm, by rw [hgm]; exact hWa⟩)
        have Q2 : a < (plainMM (d + 1) bd player).score →
            ((minimaxAB (d + 1) bd player a b).score =
                (plainMM (d + 1) bd player).score ∨
              (b ≤ (plainMM (d + 1) bd player).score ∧
                b ≤ (minimaxAB (d + 1) bd player a b).score)) := by
          intro haW
          rcases le_or_lt b (plainMM (d + 1) bd player).score with hbW | hWb
          · right
            refine ⟨hbW, ?_⟩
            rw [eAB]
            exact (nodeMin_high _ _ _ a b hab _ HC
              (fun pc hpc m hm => le_trans hbW (hall pc hpc m hm)) _ le_top rfl).1
          · left
            rw [eAB]
            have hW3 := hWmem (lt_of_lt_of_le hWb le_top)
            exact nodeMin_reach _ _ _ a b _ haW hWb _ HC hall _ le_top hbinv
              hWb.le (Or.inr hW3)
        constructor
        · intro hbW
          have haW : a < (plainMM (d + 1) bd player).score :=
            lt_of_lt_of_le hab hbW
          rcases Q2 haW with h | h
          · rw [h]
            exact hbW
          · exact h.2
        · intro hWb
          rcases le_or_lt (plainMM (d + 1) bd player).score a with hWa | haW
          · exact Or.inr ⟨hWa, Q1 hWa⟩
          · rcases Q2 haW with h | h
            · exact Or.inl h
            · exact absurd (lt_of_le_of_lt h.1 hWb) (lt_irrefl b)

theorem runPMax_top (g : Move → Score) (pc : Piece) :
    ∀ (ms : List Move) (s : MMRes), s.score = ⊤ → runPMax g pc ms s = s := by
  intro ms
  induction ms with
  | nil => intro s _; rfl
  | cons m ms ih =>
    intro s hs
    show runPMax g pc ms (if s.score < g m then _ else s) = s
    rw [if_neg (by rw [hs]; exact not_top_lt)]
    exact ih s hs

/-- The root-window simulation invariant: at the window `(⊥, ⊤)` the pruned
and the unpruned move loops stay in lockstep on score, best piece and best
move, with the running `a` equal to the running best score. -/
theorem rootSimRunMax (f : Score → Move → Score) (g : Move → Score)
    (pc : Piece) :
    ∀ (ms : List Move),
      (∀ m ∈ ms, KMContractMax (g m) f m ⊤) →
      ∀ (sAB : ABSt) (sP : MMRes),
        sAB.best = sP.score → sAB.bestPc = sP.bestPc → sAB.bestMv = sP.bestMv →
        sAB.bound = sAB.best →
        (runMax f pc ⊤ ms sAB).best = (runPMax g pc ms sP).score ∧
          (runMax f pc ⊤ ms sAB).bestPc = (runPMax g pc ms sP).bestPc ∧
          (runMax f pc ⊤ ms sAB).bestMv = (runPMax g pc ms sP).bestMv ∧
          (runMax f pc ⊤ ms sAB).bound = (runMax f pc ⊤ ms sAB).best := by
  intro ms
  induction ms with
  | nil => intro _ sAB sP h1 h2 h3 h4; exact ⟨h1, h2, h3, h4⟩
  | cons m ms ih =>
    intro hc sAB sP h1 h2 h3 h4
    have hcm := hc m (List.mem_cons_self m ms)
    have hcs : ∀ x ∈ ms, KMContractMax (g x) f x ⊤ :=
      fun x hx => hc x (List.mem_cons_of_mem m hx)
    have hPstep : runPMax g pc (m :: ms) sP =
        runPMax g pc ms (if sP.score < g m then ⟨g m, some pc, some m⟩ else sP) := rfl
    by_cases hTop : sAB.best = ⊤
    · -- frozen at ⊤: neither side can improve
      have hub : ¬sAB.best < f sAB.bound m := by
        rw [hTop]
        exact not_top_lt
      rw [runMax_cons_neg f pc ⊤ m ms sAB hub]
      have hbb : max sAB.bound sAB.best = ⊤ := by
        rw [h4, hTop]
        exact max_self ⊤
      rw [hbb, if_pos le_top]
      rw [hPstep, if_neg (by rw [← h1, hTop]; exact not_top_lt)]
      rw [runPMax_top g pc ms sP (by rw [← h1, hTop])]
      exact ⟨h1, h2, h3, hTop.symm⟩
    · have hlt : sAB.best < ⊤ := lt_of_le_of_ne le_top hTop
      have hblt : sAB.bound < ⊤ := h4 ▸ hlt
      by_cases hg : g m = ⊤
      · -- the child is a forced win: both sides update and freeze at ⊤
        have hf : f sAB.bound m = ⊤ :=
          le_antisymm le_top ((hcm sAB.bound hblt).1 (le_of_eq hg.symm))
        have hupd : sAB.best < f sAB.bound m := by
          rw [hf]
          exact hlt
        rw [runMax_cons_pos f pc ⊤ m ms sAB hupd]
        have hbb : max sAB.bound (f sAB.bound m) = ⊤ := by
          rw [hf]
          exact max_eq_right le_top
        rw [hbb, if_pos le_top]
        rw [hPstep, if_pos (by rw [hg, ← h1]; exact hlt)]
        rw [runPMax_top g pc ms ⟨g m, some pc, some m⟩ hg]
        exact ⟨by rw [hf, hg], rfl, rfl, hf.symm⟩
      · have hglt : g m < ⊤ := lt_of_le_of_ne le_top hg
        rcases (hcm sAB.bound hblt).2 hglt with hfg | hfg
        · -- the pruned child value is exact: both loops take the same step
          by_cases hupd : sAB.best < g m
          · have hupd2 : sAB.best < f sAB.bound m := by rw [hfg]; exact hupd
            rw [runMax_cons_pos f pc ⊤ m ms sAB hupd2]
            have hbb : max sAB.bound (f sAB.bound m) = f sAB.bound m := by
              nth_rewrite 1 [h4]
              exact max_eq_right hupd2.le
            rw [hbb]
            rw [if_neg (by rw [hfg]; exact not_le.mpr hglt)]
            rw [hPstep, if_pos (by rw [← h1]; exact hupd)]
            exact ih hcs _ _ hfg rfl rfl rfl
          · have hupd2 : ¬sAB.best < f sAB.bound m := by rw [hfg]; exact hupd
            rw [runMax_cons_neg f pc ⊤ m ms sAB hupd2]
            have hbb : max sAB.bound sAB.best = sAB.best := by
              rw [h4]
              exact max_self _
            rw [hbb, if_neg (not_le.mpr hlt)]
            rw [hPstep, if_neg (by rw [← h1]; exact hupd)]
            exact ih hcs _ _ h1 h2 h3 rfl
        · -- the child fails low on both accounts: no update on either side
          have hupd2 : ¬sAB.best < f sAB.bound m :=
            not_lt.mpr (le_trans hfg.2 (le_of_eq h4))
          have hupd : ¬sP.score < g m :=
            not_lt.mpr (le_trans hfg.1 (le_of_eq (h4.trans h1)))
          rw [runMax_cons_neg f pc ⊤ m ms sAB hupd2]
          have hbb : max sAB.bound sAB.best = sAB.best := by
            rw [h4]
            exact max_self _
          rw [hbb, if_neg (not_le.mpr hlt)]
          rw [hPstep, if_neg hupd]
          exact ih hcs _ _ h1 h2 h3 rfl

theorem rootSimNode (fs : Piece → Score → Move → Score)
    (gs : Piece → Move → Score) (mvs : Piece → List Move) :
    ∀ (pieces : List Piece),
      (∀ pc ∈ pieces, ∀ m ∈ mvs pc, KMContractMax (gs pc m) (fs pc) m ⊤) →
      ∀ (sAB : ABSt) (sP : MMRes),
        sAB.best = sP.score → sAB.bestPc = sP.bestPc → sAB.bestMv = sP.bestMv →
        sAB.bound = sAB.best →
        (abFoldMax fs mvs ⊤ pieces sAB).best = (pFoldMax gs mvs pieces sP).score ∧
          (abFoldMax fs mvs ⊤ pieces sAB).bestPc = (pFoldMax gs mvs pieces sP).bestPc ∧
          (abFoldMax fs mvs ⊤ pieces sAB).bestMv = (pFoldMax gs mvs pieces sP).bestMv ∧
          (abFoldMax fs mvs ⊤ pieces sAB).bound = (abFoldMax fs mvs ⊤ pieces sAB).best := by
  intro pieces
  induction pieces with
  | nil => intro _ sAB sP h1 h2 h3 h4; exact ⟨h1, h2, h3, h4⟩
  | cons pc pieces ih =>
    intro hc sAB sP h1 h2 h3 h4
    have hstep := rootSimRunMax (fs pc) (gs pc) pc (mvs pc)
      (hc pc (List.mem_cons_self pc pieces)) sAB sP h1 h2 h3 h4
    exact ih (fun x hx => hc x (List.mem_cons_of_mem pc hx)) _ _
      hstep.1 hstep.2.1 hstep.2.2.1 hstep.2.2.2

/-- Claim C4: for every board, every search depth of at least one ply, and
the maximizing team (the code maximizes exactly when the `player` argument
is `bot_player`), the alpha-beta `minimax` of `bot.py`, called with its
default `(-inf, inf)` window, returns the same score, the same chosen piece
and the same chosen move as the exhaustive, unpruned minimax over the same
game tree — pruning can change only the count of explored states. -/
theorem claim4_alphabeta_equals_plain_minimax (d : Nat) (bd : Board) :
    minimaxAB (d + 1) bd bd.botPlayer ⊥ ⊤ = plainMM (d + 1) bd bd.botPlayer := by
  show abNode (minimaxAB d) bd bd.botPlayer ⊥ ⊤ = pNode (plainMM d) bd bd.botPlayer
  by_cases hgo : bd.gameOver
  · rw [abNode, if_pos hgo, pNode, if_pos hgo]
  · rw [abNode, if_neg hgo, if_pos rfl, pNode, if_neg hgo, if_pos rfl]
    have HC : ∀ pc ∈ getPiecesForPlayer bd bd.botPlayer, ∀ m ∈ nodeMoves bd pc,
        KMContractMax (pChild (plainMM d) bd pc m)
          (abChildMax (minimaxAB d) bd ⊤ pc) m ⊤ := by
      intro pc _ m _ a' ha'
      exact km_bounds d (movePos bd pc.pos m.endPos)
        (movePos bd pc.pos m.endPos).currentPlayer a' ⊤ ha'
    have hsim := rootSimNode (abChildMax (minimaxAB d) bd ⊤) (pChild (plainMM d) bd)
      (nodeMoves bd) (getPiecesForPlayer bd bd.botPlayer) HC
      ⟨⊥, none, none, ⊥⟩ ⟨⊥, none, none⟩ rfl rfl rfl rfl
    obtain ⟨h1, h2, h3, _⟩ := hsim
    show (⟨_, _, _⟩ : MMRes) = _
    rw [h1, h2, h3]

end ChessBot
